import Mathlib

/-!
Verification development for the hashicorp-vault account plugin's live
account cache (`internal/cache/account_cache.go`) and the vault client
config unmarshalling (`internal/config/vaultclient.go`).

The Go code is shallowly embedded: machine integers become `Nat`, Go maps
become association lists with Go map read/write/delete semantics, Go slices
become `List`, and the standard-library pieces the code calls
(`strings.Compare`, `sort.Search`, `accounts.URL.Cmp`, `filepath.Join`)
are translated from their sources.  Collaborator code of the repository
that is not part of the sources at hand (the directory watcher, the timer
driven throttle, the filesystem scanner) is modelled from the spec where a
claim needs it; each such definition carries a `Modelled from the spec`
comment.
-/

/-! ### Strings: the order used by Go `strings.Compare`

Go `strings.Compare` is byte-wise lexicographic comparison of UTF-8
strings.  UTF-8 encoding preserves the order of unicode scalar values,
so the same three-way comparison is computed by lexicographic comparison
of the scalar-value sequences. -/

/-- Lexicographic three-way comparison of character lists by scalar
value. -/
def charListCompare : List Char → List Char → Ordering
  | [], [] => .eq
  | [], _ :: _ => .lt
  | _ :: _, [] => .gt
  | c :: cs, d :: ds =>
    if c.toNat < d.toNat then .lt
    else if d.toNat < c.toNat then .gt
    else charListCompare cs ds

/-- Translation of Go `strings.Compare`. -/
def stringsCompare (a b : String) : Ordering :=
  charListCompare a.data b.data

theorem charListCompare_eq_eq : ∀ {a b : List Char}, charListCompare a b = .eq ↔ a = b := by
  intro a
  induction a with
  | nil =>
    intro b
    cases b <;> simp [charListCompare]
  | cons c cs ih =>
    intro b
    cases b with
    | nil => simp [charListCompare]
    | cons d ds =>
      unfold charListCompare
      by_cases h1 : c.toNat < d.toNat
      · rw [if_pos h1]
        constructor
        · intro h; cases h
        · intro h
          cases h
          omega
      · rw [if_neg h1]
        by_cases h2 : d.toNat < c.toNat
        · rw [if_pos h2]
          constructor
          · intro h; cases h
          · intro h; cases h; omega
        · rw [if_neg h2]
          have h3 : c.toNat = d.toNat := by omega
          have hcd : c = d := Char.eq_of_val_eq (UInt32.ext h3)
          subst hcd
          rw [ih]
          constructor
          · intro h; rw [h]
          · intro h; cases h; rfl

theorem charListCompare_swap :
    ∀ {a b : List Char}, charListCompare a b = .lt ↔ charListCompare b a = .gt := by
  intro a
  induction a with
  | nil =>
    intro b
    cases b <;> simp [charListCompare]
  | cons c cs ih =>
    intro b
    cases b with
    | nil => simp [charListCompare]
    | cons d ds =>
      unfold charListCompare
      by_cases h1 : c.toNat < d.toNat
      · rw [if_pos h1, if_neg (by omega : ¬ d.toNat < c.toNat), if_pos h1]
        simp
      · rw [if_neg h1]
        by_cases h2 : d.toNat < c.toNat
        · rw [if_pos h2, if_pos h2]
          simp
        · rw [if_neg h2, if_neg h1, if_neg h2]
          exact ih

theorem charListCompare_lt_trans :
    ∀ {a b c : List Char}, charListCompare a b = .lt → charListCompare b c = .lt →
      charListCompare a c = .lt := by
  intro a
  induction a with
  | nil =>
    intro b c h1 h2
    cases c with
    | nil =>
      cases b with
      | nil => cases h1
      | cons d ds => cases h2
    | cons e es => simp [charListCompare]
  | cons x xs ih =>
    intro b c h1 h2
    cases b with
    | nil => cases h1
    | cons y ys =>
      cases c with
      | nil => cases h2
      | cons z zs =>
        unfold charListCompare at h1 h2 ⊢
        by_cases hxy : x.toNat < y.toNat
        · by_cases hyz : y.toNat < z.toNat
          · rw [if_pos (by omega : x.toNat < z.toNat)]
          · rw [if_neg hyz] at h2
            by_cases hzy : z.toNat < y.toNat
            · rw [if_pos hzy] at h2; cases h2
            · have hyz2 : y.toNat = z.toNat := by omega
              rw [if_pos (by omega : x.toNat < z.toNat)]
        · rw [if_neg hxy] at h1
          by_cases hyx : y.toNat < x.toNat
          · rw [if_pos hyx] at h1; cases h1
          · have hxy2 : x.toNat = y.toNat := by omega
            rw [if_neg hyx] at h1
            by_cases hyz : y.toNat < z.toNat
            · rw [if_pos (by omega : x.toNat < z.toNat)]
            · rw [if_neg hyz] at h2
              by_cases hzy : z.toNat < y.toNat
              · rw [if_pos hzy] at h2; cases h2
              · rw [if_neg (by omega : ¬ x.toNat < z.toNat),
                  if_neg (by omega : ¬ z.toNat < x.toNat)]
                rw [if_neg hzy] at h2
                exact ih h1 h2

theorem stringsCompare_eq_eq {a b : String} : stringsCompare a b = .eq ↔ a = b := by
  unfold stringsCompare
  rw [charListCompare_eq_eq]
  constructor
  · intro h; exact String.ext h
  · intro h; rw [h]

theorem stringsCompare_swap {a b : String} :
    stringsCompare a b = .lt ↔ stringsCompare b a = .gt := charListCompare_swap

theorem stringsCompare_lt_trans {a b c : String} (h1 : stringsCompare a b = .lt)
    (h2 : stringsCompare b c = .lt) : stringsCompare a c = .lt :=
  charListCompare_lt_trans h1 h2

theorem stringsCompare_self (a : String) : stringsCompare a a = .eq :=
  stringsCompare_eq_eq.mpr rfl

/-! ### URLs

`accounts.URL` from go-ethereum: a scheme and an opaque path, compared by
`URL.Cmp`: scheme first, then path (each by `strings.Compare`). -/

/-- Translation of go-ethereum `accounts.URL`. -/
structure URL where
  scheme : String
  path : String
deriving DecidableEq, Repr

/-- Translation of go-ethereum `accounts.URL.Cmp`:
if schemes are equal compare paths, else compare schemes. -/
def URL.cmp (u v : URL) : Ordering :=
  if u.scheme = v.scheme then stringsCompare u.path v.path
  else stringsCompare u.scheme v.scheme

theorem URL.cmp_eq_eq {u v : URL} : u.cmp v = .eq ↔ u = v := by
  unfold URL.cmp
  split
  · rw [stringsCompare_eq_eq]
    constructor
    · intro h; cases u; cases v; simp_all
    · intro h; cases h; rfl
  · rw [stringsCompare_eq_eq]
    constructor
    · intro h; exact absurd h ‹¬ u.scheme = v.scheme›
    · intro h; cases h; rfl

theorem URL.cmp_self (u : URL) : u.cmp u = .eq := URL.cmp_eq_eq.mpr rfl

theorem URL.cmp_swap {u v : URL} : u.cmp v = .lt ↔ v.cmp u = .gt := by
  unfold URL.cmp
  by_cases h : u.scheme = v.scheme
  · rw [if_pos h, if_pos h.symm]
    exact stringsCompare_swap
  · rw [if_neg h, if_neg (fun hh => h hh.symm)]
    exact stringsCompare_swap

/-- `u ≤ v` in the URL order: comparison did not say `gt`. -/
def URL.le (u v : URL) : Prop := u.cmp v ≠ .gt

instance : DecidableRel URL.le := fun u v =>
  inferInstanceAs (Decidable (u.cmp v ≠ .gt))

theorem URL.le_refl (u : URL) : u.le u := by
  unfold URL.le; rw [URL.cmp_self]; intro h; cases h

theorem URL.cmp_cases (u v : URL) :
    u.cmp v = .lt ∨ u.cmp v = .eq ∨ u.cmp v = .gt := by
  cases u.cmp v <;> simp

theorem URL.le_total (u v : URL) : u.le v ∨ v.le u := by
  unfold URL.le
  rcases URL.cmp_cases u v with h | h | h
  · left; rw [h]; intro hh; cases hh
  · left; rw [h]; intro hh; cases hh
  · right
    have h2 : v.cmp u = .lt := URL.cmp_swap.mpr h
    rw [h2]; intro hh; cases hh

theorem URL.lt_of_not_le {u v : URL} (h : ¬ u.le v) : v.cmp u = .lt := by
  unfold URL.le at h
  push_neg at h
  exact URL.cmp_swap.mpr h

theorem URL.le_of_cmp_lt {u v : URL} (h : u.cmp v = .lt) : u.le v := by
  unfold URL.le; rw [h]; intro hh; cases hh

theorem URL.le_of_cmp_eq {u v : URL} (h : u.cmp v = .eq) : u.le v := by
  unfold URL.le; rw [h]; intro hh; cases hh

theorem URL.eq_of_le_ge {u v : URL} (h1 : u.le v) (h2 : v.le u) : u = v := by
  rcases URL.cmp_cases u v with h | h | h
  · rw [URL.cmp_swap] at h; exact absurd h h2
  · exact URL.cmp_eq_eq.mp h
  · exact absurd h h1

theorem URL.cmp_lt_trans {u v w : URL} (h1 : u.cmp v = .lt) (h2 : v.cmp w = .lt) :
    u.cmp w = .lt := by
  unfold URL.cmp at *
  by_cases huv : u.scheme = v.scheme <;> by_cases hvw : v.scheme = w.scheme
  · rw [if_pos huv] at h1
    rw [if_pos hvw] at h2
    rw [if_pos (huv.trans hvw)]
    exact stringsCompare_lt_trans h1 h2
  · rw [if_neg hvw] at h2
    rw [if_neg (fun h => hvw (huv.symm.trans h)), huv]
    exact h2
  · rw [if_neg huv] at h1
    rw [if_neg (fun h => huv (h.trans hvw.symm)), ← hvw]
    exact h1
  · rw [if_neg huv] at h1
    rw [if_neg hvw] at h2
    by_cases huw : u.scheme = w.scheme
    · have hgt := stringsCompare_swap.mp h1
      rw [huw] at hgt
      rw [hgt] at h2
      cases h2
    · rw [if_neg huw]
      exact stringsCompare_lt_trans h1 h2

theorem URL.le_trans {u v w : URL} (h1 : u.le v) (h2 : v.le w) : u.le w := by
  rcases URL.cmp_cases u v with huv | huv | huv
  · rcases URL.cmp_cases v w with hvw | hvw | hvw
    · exact URL.le_of_cmp_lt (URL.cmp_lt_trans huv hvw)
    · rw [URL.cmp_eq_eq] at hvw
      exact hvw ▸ URL.le_of_cmp_lt huv
    · exact absurd hvw h2
  · rw [URL.cmp_eq_eq] at huv
    exact huv ▸ h2
  · exact absurd huv h1

/-! ### Accounts

go-ethereum `accounts.Account`: an address plus a URL.  The address is a
fixed-length binary identifier whose only relevant operations are equality
and comparison with the zero value; it is embedded as `Nat` with `0` as
the zero value. -/

abbrev Address := Nat

/-- Translation of go-ethereum `accounts.Account` (Address, URL). -/
structure Account where
  address : Address
  url : URL
deriving DecidableEq, Repr

/-- The Go zero value `accounts.Account{}`. -/
def accountZero : Account := ⟨0, ⟨"", ""⟩⟩

/-- The `accountsByURL.Less`-induced non-strict order used for sorting:
`x ≤ y` iff `x.URL.Cmp(y.URL)` is not `gt`. -/
def Account.urlLe (x y : Account) : Prop := x.url.le y.url

instance : DecidableRel Account.urlLe := fun x y =>
  inferInstanceAs (Decidable (x.url.le y.url))

instance : IsTrans Account Account.urlLe :=
  ⟨fun _ _ _ h1 h2 => URL.le_trans h1 h2⟩

instance : IsTotal Account Account.urlLe :=
  ⟨fun x y => URL.le_total x.url y.url⟩

instance : IsRefl Account Account.urlLe := ⟨fun x => URL.le_refl x.url⟩

/-! ### Go `sort.Search`

The exact binary search loop from the Go standard library:

    i, j := 0, n
    for i < j {
        h := int(uint(i+j) >> 1)
        if !f(h) { i = h + 1 } else { j = h }
    }
    return i
-/

/-- The loop of Go `sort.Search` (the midpoint `h := (i+j)/2` is
inlined).  The loop runs at most `j - i` iterations; it is rendered with
a structural fuel argument so that it evaluates by kernel reduction, and
`sortSearch` supplies fuel `n ≥ j - i`, for which the fuel never runs
out. -/
def searchLoop (f : Nat → Bool) : Nat → Nat → Nat → Nat
  | 0, i, _ => i
  | fuel + 1, i, j =>
    if i < j then
      if f ((i + j) / 2) then searchLoop f fuel i ((i + j) / 2)
      else searchLoop f fuel ((i + j) / 2 + 1) j
    else i

/-- Translation of Go `sort.Search(n, f)`. -/
def sortSearch (n : Nat) (f : Nat → Bool) : Nat := searchLoop f n 0 n

theorem searchLoop_le (f : Nat → Bool) :
    ∀ (fuel i j : Nat), i ≤ j → j - i ≤ fuel →
      i ≤ searchLoop f fuel i j ∧ searchLoop f fuel i j ≤ j := by
  intro fuel
  induction fuel with
  | zero =>
    intro i j hij hf
    unfold searchLoop
    omega
  | succ fuel ih =>
    intro i j hij hf
    unfold searchLoop
    split
    · rename_i hlt
      have hm1 : (i + j) / 2 < j := Nat.div_lt_of_lt_mul (by omega)
      have hm2 : i ≤ (i + j) / 2 := Nat.le_div_iff_mul_le (by omega) |>.mpr (by omega)
      split
      · have := ih i ((i + j) / 2) hm2 (by omega)
        omega
      · have := ih ((i + j) / 2 + 1) j (by omega) (by omega)
        omega
    · omega

/-- Predicate monotone on `[0, n)`: once true, stays true. -/
def MonoPred (f : Nat → Bool) (n : Nat) : Prop :=
  ∀ k, k + 1 < n → f k = true → f (k + 1) = true

theorem MonoPred.le {f : Nat → Bool} {n : Nat} (hm : MonoPred f n) :
    ∀ k l, k ≤ l → l < n → f k = true → f l = true := by
  intro k l hkl hln hk
  induction l with
  | zero => cases Nat.le_zero.mp hkl; exact hk
  | succ l ih =>
    rcases Nat.lt_or_ge k (l + 1) with h | h
    · exact hm l hln (ih (by omega) (by omega))
    · have hkl2 : k = l + 1 := by omega
      exact hkl2 ▸ hk

theorem searchLoop_char {f : Nat → Bool} {n : Nat} (hm : MonoPred f n) :
    ∀ (fuel i j : Nat), i ≤ j → j ≤ n → j - i ≤ fuel →
    (∀ k, k < i → f k = false) → (∀ k, j ≤ k → k < n → f k = true) →
    (∀ k, k < searchLoop f fuel i j → f k = false) ∧
    (∀ k, searchLoop f fuel i j ≤ k → k < n → f k = true) := by
  intro fuel
  induction fuel with
  | zero =>
    intro i j hij hjn hf hlow hhigh
    have hij2 : i = j := by omega
    subst hij2
    exact ⟨hlow, hhigh⟩
  | succ fuel ih =>
    intro i j hij hjn hf hlow hhigh
    unfold searchLoop
    split
    · rename_i hlt
      have hm1 : (i + j) / 2 < j := Nat.div_lt_of_lt_mul (by omega)
      have hm2 : i ≤ (i + j) / 2 := Nat.le_div_iff_mul_le (by omega) |>.mpr (by omega)
      split
      · rename_i hfm
        exact ih i ((i + j) / 2) hm2 (by omega) (by omega) hlow
          (fun k hk hkn => hm.le _ _ hk hkn hfm)
      · rename_i hfm
        refine ih ((i + j) / 2 + 1) j (by omega) hjn (by omega) ?_ hhigh
        intro k hk
        rcases Nat.lt_or_ge k i with h | h
        · exact hlow k h
        · have hkm : k ≤ (i + j) / 2 := by omega
          cases hfk : f k
          · rfl
          · exact absurd (hm.le _ _ hkm (by omega) hfk) (by simp [hfm])
    · rename_i hge
      have hij2 : i = j := by omega
      subst hij2
      exact ⟨hlow, hhigh⟩

theorem sortSearch_char {f : Nat → Bool} {n : Nat} (hm : MonoPred f n) :
    (∀ k, k < sortSearch n f → f k = false) ∧
    (∀ k, sortSearch n f ≤ k → k < n → f k = true) :=
  searchLoop_char hm n 0 n (Nat.zero_le n) (Nat.le_refl n) (by omega)
    (fun k hk => absurd hk (Nat.not_lt_zero k)) (fun k hk hkn => absurd hkn (by omega))

theorem sortSearch_le (n : Nat) (f : Nat → Bool) : sortSearch n f ≤ n :=
  (searchLoop_le f n 0 n (Nat.zero_le n) (by omega)).2

/-! ### Go maps as association lists

A Go map is embedded as an association list with at most one entry per
key (all states built by the cache operations keep keys distinct).
Reading a missing key yields the zero value (`none` here; callers apply
their zero-value default), assignment replaces the entry in place, and
`delete` removes it. -/

/-- Go map read: first entry with the key, if any. -/
def mapGet [DecidableEq κ] (m : List (κ × ν)) (k : κ) : Option ν :=
  match m with
  | [] => none
  | (k', v') :: rest => if k' = k then some v' else mapGet rest k

/-- Go map assignment `m[k] = v`. -/
def mapSet [DecidableEq κ] (m : List (κ × ν)) (k : κ) (v : ν) : List (κ × ν) :=
  match m with
  | [] => [(k, v)]
  | (k', v') :: rest =>
    if k' = k then (k, v) :: rest else (k', v') :: mapSet rest k v

/-- Go map `delete(m, k)`. -/
def mapDel [DecidableEq κ] (m : List (κ × ν)) (k : κ) : List (κ × ν) :=
  match m with
  | [] => []
  | (k', v') :: rest =>
    if k' = k then rest else (k', v') :: mapDel rest k

theorem mapGet_eq_none_of_not_mem_keys [DecidableEq κ] {m : List (κ × ν)} {k : κ}
    (h : k ∉ m.map Prod.fst) : mapGet m k = none := by
  induction m with
  | nil => simp [mapGet]
  | cons e rest ih =>
    obtain ⟨k0, v0⟩ := e
    simp only [List.map_cons, List.mem_cons] at h
    unfold mapGet
    rw [if_neg (fun hh : k0 = k => h (Or.inl hh.symm))]
    exact ih (fun hh => h (Or.inr hh))

theorem mapGet_mapSet_self [DecidableEq κ] (m : List (κ × ν)) (k : κ) (v : ν) :
    mapGet (mapSet m k v) k = some v := by
  induction m with
  | nil => simp [mapGet, mapSet]
  | cons e rest ih =>
    obtain ⟨k', v'⟩ := e
    unfold mapSet
    by_cases h : k' = k
    · simp [h, mapGet]
    · simp only [if_neg h]
      unfold mapGet
      rw [if_neg h]
      exact ih

theorem mapGet_mapSet_ne [DecidableEq κ] (m : List (κ × ν)) {k k' : κ} (v : ν)
    (h : k' ≠ k) : mapGet (mapSet m k v) k' = mapGet m k' := by
  induction m with
  | nil =>
    show mapGet [(k, v)] k' = mapGet [] k'
    unfold mapGet
    rw [if_neg (fun hh : k = k' => h hh.symm)]
    rfl
  | cons e rest ih =>
    obtain ⟨k0, v0⟩ := e
    unfold mapSet
    by_cases h0 : k0 = k
    · rw [if_pos h0]
      unfold mapGet
      rw [if_neg (fun hh : k = k' => h hh.symm),
        if_neg (fun hh : k0 = k' => h (hh.symm.trans h0))]
    · rw [if_neg h0]
      unfold mapGet
      by_cases h1 : k0 = k'
      · rw [if_pos h1, if_pos h1]
      · rw [if_neg h1, if_neg h1]
        exact ih

theorem mapGet_mapDel_self [DecidableEq κ] (m : List (κ × ν)) (k : κ)
    (hnd : (m.map Prod.fst).Nodup) : mapGet (mapDel m k) k = none := by
  induction m with
  | nil => simp [mapGet, mapDel]
  | cons e rest ih =>
    obtain ⟨k0, v0⟩ := e
    simp only [List.map_cons, List.nodup_cons] at hnd
    unfold mapDel
    by_cases h0 : k0 = k
    · rw [if_pos h0]
      exact mapGet_eq_none_of_not_mem_keys (h0 ▸ hnd.1)
    · rw [if_neg h0]
      unfold mapGet
      rw [if_neg h0]
      exact ih hnd.2

theorem mapGet_mapDel_ne [DecidableEq κ] (m : List (κ × ν)) {k k' : κ}
    (h : k' ≠ k) : mapGet (mapDel m k) k' = mapGet m k' := by
  induction m with
  | nil => simp [mapGet, mapDel]
  | cons e rest ih =>
    obtain ⟨k0, v0⟩ := e
    unfold mapDel
    by_cases h0 : k0 = k
    · rw [if_pos h0]
      conv_rhs => unfold mapGet
      rw [if_neg (fun hh : k0 = k' => h (hh.symm.trans h0))]
    · rw [if_neg h0]
      conv_rhs => unfold mapGet
      conv_lhs => unfold mapGet
      by_cases h1 : k0 = k'
      · rw [if_pos h1, if_pos h1]
      · rw [if_neg h1, if_neg h1]
        exact ih

/-! ### The account cache index state

`AccountCache` from `account_cache.go`, restricted to the index structures
the claims are about (`keydir`, `all`, `byAddr`, `byFile`).  The mutex,
watcher, throttle timer, notification channel and file cache are modelled
separately where a claim needs them. -/

/-- The index portion of `AccountCache`. -/
structure CacheState where
  keydir : String
  all : List Account
  byAddr : List (Address × List Account)
  byFile : List (String × Account)
deriving DecidableEq, Repr

/-- A fresh cache as `NewAccountCache` builds it: empty index structures. -/
def emptyCache (keydir : String) : CacheState :=
  ⟨keydir, [], [], []⟩

/-- Reading `ac.byAddr[addr]`: a missing key reads as the zero value
`nil`, i.e. the empty list. -/
def byAddrGet (m : List (Address × List Account)) (a : Address) : List Account :=
  (mapGet m a).getD []

/-- Insertion at position `i ≤ l.length`; translation of
`ac.all = append(ac.all, accounts.Account{}); copy(ac.all[i+1:], ac.all[i:]); ac.all[i] = newAccount`. -/
def insertAt (l : List α) (i : Nat) (x : α) : List α :=
  l.take i ++ x :: l.drop i

/-- Translation of `removeAccount`: drop the first occurrence of `elem`,
or return the slice unchanged. -/
def removeAccount (slice : List Account) (elem : Account) : List Account :=
  match slice with
  | [] => slice
  | x :: rest => if x = elem then rest else x :: removeAccount rest elem

/-- The predicate closure passed to `sort.Search` in `Add`:
`ac.all[i].URL.Cmp(newAccount.URL) >= 0`. -/
def addSearchPred (all : List Account) (newAccount : Account) (k : Nat) : Bool :=
  (all.getD k accountZero).url.cmp newAccount.url ≠ .lt

/-- Translation of `AccountCache.Add`. -/
def CacheState.Add (s : CacheState) (newAccount : Account) (filePath : String) :
    CacheState :=
  let i := sortSearch s.all.length (addSearchPred s.all newAccount)
  if i < s.all.length ∧ s.all.getD i accountZero = newAccount then s
  else
    { s with
      all := insertAt s.all i newAccount
      byAddr := mapSet s.byAddr newAccount.address
        (byAddrGet s.byAddr newAccount.address ++ [newAccount])
      byFile := mapSet s.byFile filePath newAccount }

/-- The predicate closure passed to `sort.Search` in `deleteByFile`:
`ac.all[i].URL.Path >= acct.URL.Path` (a plain string comparison of the
paths only). -/
def deleteSearchPred (all : List Account) (acct : Account) (k : Nat) : Bool :=
  stringsCompare (all.getD k accountZero).url.path acct.url.path ≠ .lt

/-- Translation of `AccountCache.deleteByFile`.  Note that when the path
has no `byFile` entry the source only logs and then continues with the
zero-value account (there is no early return). -/
def CacheState.deleteByFile (s : CacheState) (path : String) : CacheState :=
  let acct := (mapGet s.byFile path).getD accountZero
  let i := sortSearch s.all.length (deleteSearchPred s.all acct)
  if i < s.all.length ∧ (s.all.getD i accountZero).url.path = acct.url.path then
    let removed := s.all.getD i accountZero
    let ba := removeAccount (byAddrGet s.byAddr removed.address) removed
    { s with
      all := s.all.take i ++ s.all.drop (i + 1)
      byAddr :=
        if ba.length = 0 then mapDel s.byAddr removed.address
        else mapSet s.byAddr removed.address ba
      byFile := mapDel s.byFile path }
  else s

/-! ### Operation sequences

The cache is mutated through `Add` and `deleteByFile` (driven by
`scanAccounts`); claims C1 and C2 quantify over arbitrary sequences of
these two operations starting from the empty cache. -/

/-- One index mutation. -/
inductive CacheOp where
  | add (a : Account) (f : String)
  | del (f : String)
deriving DecidableEq, Repr

/-- Apply one operation. -/
def applyOp (s : CacheState) (op : CacheOp) : CacheState :=
  match op with
  | .add a f => s.Add a f
  | .del f => s.deleteByFile f

/-- Run a sequence of operations. -/
def runOps (s : CacheState) (ops : List CacheOp) : CacheState :=
  ops.foldl applyOp s

/-- The `(account, file)` pairs added by a sequence of operations. -/
def addsOf (ops : List CacheOp) : List (Account × String) :=
  ops.filterMap (fun op => match op with
    | .add a f => some (a, f)
    | .del _ => none)

/-- One step of live-file tracking: an `add` marks the path live, a
`del` removes it. -/
def liveStep (l : List String) (op : CacheOp) : List String :=
  match op with
  | .add _ f => if f ∈ l then l else l ++ [f]
  | .del f => l.erase f

/-- The file paths that have been added and not removed since: a path is
live when an `add` for it has happened and no later `del` for it. -/
def liveFiles (ops : List CacheOp) : List String :=
  ops.foldl liveStep []

/-- `ac.all` sorted by `URL.Cmp`, the invariant I1. -/
def SortedByURL (l : List Account) : Prop := l.Pairwise Account.urlLe

instance : DecidablePred SortedByURL := fun l =>
  inferInstanceAs (Decidable (l.Pairwise Account.urlLe))

/-! ### `filepath` helpers (Unix rules, `Separator = '/'`)

`filepath.Clean` is translated from the documented lexical algorithm of
Go `path/filepath.Clean` (segment stack processing), `filepath.Join` from
its source (`Clean(strings.Join(elem, "/"))` from the first non-empty
element). -/

def filepathSeparator : Char := '/'

/-- Translation of Go `strings.ContainsRune` (over the scalar-value
sequence of the string). -/
def stringContainsRune (s : String) (c : Char) : Bool := s.data.contains c

/-- One step of `Clean`'s segment processing; the stack is kept reversed
(head is the most recent segment). -/
def cleanSeg (rooted : Bool) (st : List String) (seg : String) : List String :=
  if seg = "" ∨ seg = "." then st
  else if seg = ".." then
    match st with
    | [] => if rooted then [] else [".."]
    | top :: rest => if top = ".." then ".." :: st else rest
  else seg :: st

/-- Translation of Go `path/filepath.Clean` (Unix). -/
def filepathClean (path : String) : String :=
  if path = "" then "."
  else
    let rooted := path.startsWith "/"
    let st := (path.splitOn "/").foldl (cleanSeg rooted) []
    let body := String.intercalate "/" st.reverse
    if rooted then "/" ++ body
    else if body = "" then "." else body

/-- Translation of Go `path/filepath.Join` for two elements. -/
def filepathJoin (dir file : String) : String :=
  if dir ≠ "" then filepathClean (dir ++ "/" ++ file)
  else if file ≠ "" then filepathClean file
  else ""

/-! ### `Find` -/

/-- Lookup failures surfaced by `Find`: `ErrNoMatch` and
`AmbiguousAddrError` (with its `Addr` and `Matches` fields). -/
inductive FindError where
  | noMatch
  | ambiguousAddr (addr : Address) (matchesList : List Account)
deriving DecidableEq, Repr

/-- The scan loop in `Find`:
`for i := range matches { if matches[i].URL == a.URL { return matches[i], nil } }`. -/
def firstURLMatch (matchesList : List Account) (u : URL) : Option Account :=
  match matchesList with
  | [] => none
  | m :: rest => if m.url = u then some m else firstURLMatch rest u

/-- `sort.Sort(accountsByURL(err.Matches))`.  Go's `sort.Sort` guarantees
exactly a permutation of its input that is sorted by the given `Less`;
it is modelled by insertion sort, which satisfies the same contract. -/
def sortByURL (l : List Account) : List Account :=
  List.insertionSort Account.urlLe l

/-- Translation of `AccountCache.Find`.  The early returns of the
`a.URL.Path != ""` block are rendered with an intermediate `Option`. -/
def CacheState.Find (s : CacheState) (a : Account) : Except FindError Account :=
  let matchesList := if a.address ≠ 0 then byAddrGet s.byAddr a.address else s.all
  let a' :=
    if a.url.path ≠ "" ∧ ¬ stringContainsRune a.url.path filepathSeparator
    then { a with url := ⟨a.url.scheme, filepathJoin s.keydir a.url.path⟩ }
    else a
  let early : Option (Except FindError Account) :=
    if a.url.path ≠ "" then
      match firstURLMatch matchesList a'.url with
      | some m => some (.ok m)
      | none =>
        if a'.address = 0 then some (.error .noMatch) else none
    else none
  match early with
  | some r => r
  | none =>
    if matchesList.length = 1 then .ok (matchesList.getD 0 accountZero)
    else if matchesList.length = 0 then .error .noMatch
    else .error (.ambiguousAddr a'.address (sortByURL matchesList))

/-! ### A store model for `Accounts()`

The claim about `Accounts()` is about slice aliasing: the returned slice
must be a fresh copy, so that writes through it cannot reach the cache's
internal `all` slice.  Slices are modelled as cells of a store addressed
by index; translation of

    cpy := make([]accounts.Account, len(ac.all))
    copy(cpy, ac.all)
    return cpy
-/

structure SliceHeap where
  cells : List (List Account)
deriving DecidableEq, Repr

def SliceHeap.read (h : SliceHeap) (id : Nat) : List Account := h.cells.getD id []

def SliceHeap.write (h : SliceHeap) (id : Nat) (v : List Account) : SliceHeap :=
  ⟨h.cells.set id v⟩

/-- `make` + `copy`: allocate a fresh cell holding the same elements. -/
def SliceHeap.alloc (h : SliceHeap) (v : List Account) : SliceHeap × Nat :=
  (⟨h.cells ++ [v]⟩, h.cells.length)

/-- The locked section of `AccountCache.Accounts`: allocate a fresh slice,
copy `ac.all` into it, return it. -/
def accountsCopy (h : SliceHeap) (allId : Nat) : SliceHeap × Nat :=
  h.alloc (h.read allId)

/-! ### Watcher, throttle timer and notification channel

`MaybeReload` and `Close` touch the watcher, the `time.Timer` throttle
and the `notify` channel.  The watcher and the scan are code of this
repository outside the sources at hand, so they are modelled from the
spec; the timer is modelled from pre-Go-1.23 `time.Timer` semantics (the
version pinned by this repository): firing puts a value into the timer's
one-slot channel, and `Reset` re-arms the timer without draining that
channel.  Time is an abstract instant passed to each call; a due fire is
delivered before the program's next observation of the timer. -/

structure GoTimer where
  deadline : Nat
  running : Bool
  chanVal : Bool
deriving DecidableEq, Repr

/-- Deliver a due fire: an armed timer whose deadline has passed puts a
value into its channel. -/
def GoTimer.tick (tm : GoTimer) (now : Nat) : GoTimer :=
  if tm.running ∧ tm.deadline ≤ now then ⟨tm.deadline, false, true⟩ else tm

/-- `time.NewTimer(d)` at instant `now`. -/
def newGoTimer (now d : Nat) : GoTimer := ⟨now + d, true, false⟩

/-- Pre-Go-1.23 `Timer.Reset(d)`: re-arm; a value already delivered to
the channel stays there. -/
def GoTimer.reset (tm : GoTimer) (now d : Nat) : GoTimer :=
  let tm2 := tm.tick now
  ⟨now + d, true, tm2.chanVal⟩

/-- The non-blocking receive `select { case <-ac.throttle.C: ... default: ... }`. -/
def GoTimer.tryRecv (tm : GoTimer) (now : Nat) : GoTimer × Bool :=
  let tm2 := tm.tick now
  if tm2.chanVal then (⟨tm2.deadline, tm2.running, false⟩, true) else (tm2, false)

/-- `Timer.Stop`: de-schedule; the channel is not drained. -/
def GoTimer.stop (tm : GoTimer) : GoTimer := ⟨tm.deadline, false, tm.chanVal⟩

/-- The lifecycle portion of `AccountCache`: watcher flag, throttle
timer, notification channel (`none` = nil, `some closed` = a channel,
closed or open), and the number of `scanAccounts` runs (modelled from the
spec: the directory scan itself is file I/O outside the embedding, so
only its occurrence is recorded). -/
structure WatchState where
  watcherRunning : Bool
  throttle : Option GoTimer
  notify : Option Bool
  scans : Nat
deriving DecidableEq, Repr

/-- `minReloadInterval = 2 * time.Second`, in seconds. -/
def minReloadInterval : Nat := 2

/-- A fresh cache's lifecycle state: no watcher, nil throttle timer, an
open notification channel. -/
def freshWatchState : WatchState := ⟨false, none, some false, 0⟩

/-- Translation of `AccountCache.MaybeReload` at instant `now`.
`ac.watcher.start()` is modelled from the spec: starting may fail (no
notification support), in which case the cache stays in polling mode;
the claim under scrutiny assumes exactly this "no watcher running" mode,
so start is modelled as failing and `watcherRunning` stays false. -/
def WatchState.maybeReload (s : WatchState) (now : Nat) : WatchState :=
  if s.watcherRunning then s
  else
    match s.throttle with
    | none =>
      let tm := newGoTimer now 0
      let tm2 := tm.reset now minReloadInterval
      { s with throttle := some tm2, scans := s.scans + 1 }
    | some tm =>
      let r := tm.tryRecv now
      if r.2 then
        let tm2 := r.1.reset now minReloadInterval
        { s with throttle := some tm2, scans := s.scans + 1 }
      else { s with throttle := some r.1 }

/-- Translation of `AccountCache.Close`; `none` is a panic (double close
of the channel).  `ac.watcher.close()` is modelled from the spec: it
stops the watcher. -/
def WatchState.Close (s : WatchState) : Option WatchState :=
  let s1 : WatchState :=
    { s with
      watcherRunning := false
      throttle := s.throttle.map GoTimer.stop }
  match s1.notify with
  | none => some s1
  | some closed =>
    if closed then none else some { s1 with notify := none }

/-! ### Vault client configuration (`internal/config/vaultclient.go`)

`VaultClient.UnmarshalJSON` first decodes the bytes into a fresh
`vaultClientJSON`, then converts it with `vaultClient()`, and only on
success assigns the result to the receiver.  The standard-library
collaborators `json.Unmarshal` and `url.Parse` are taken as parameters
(a `ParseEnv`): the claim is a control-flow property that holds for every
behaviour of those parsers. -/

/-- Stand-in for `*url.URL`; its internals are irrelevant here. -/
structure GoURL where
  raw : String
deriving DecidableEq, Repr

/-- Field layout of `vaultClientAuthenticationJSON`. -/
structure VaultClientAuthenticationJSON where
  token : String
  roleId : String
  secretId : String
  approlePath : String
deriving DecidableEq, Repr

/-- Field layout of `vaultClientTLSJSON`. -/
structure VaultClientTLSJSON where
  caCert : String
  clientCert : String
  clientKey : String
deriving DecidableEq, Repr

/-- Field layout of `vaultClientJSON`. -/
structure VaultClientJSON where
  vault : String
  accountDirectory : String
  unlock : List String
  authentication : VaultClientAuthenticationJSON
  tls : VaultClientTLSJSON
deriving DecidableEq, Repr

/-- Field layout of `VaultClientAuthentication` (`environmentVariable`
is a `url.URL`). -/
structure VaultClientAuthentication where
  token : GoURL
  roleId : GoURL
  secretId : GoURL
  approlePath : String
deriving DecidableEq, Repr

/-- Field layout of `vaultClientTLS`. -/
structure VaultClientTLS where
  caCert : GoURL
  clientCert : GoURL
  clientKey : GoURL
deriving DecidableEq, Repr

/-- Field layout of `VaultClient`. -/
structure VaultClient where
  vault : GoURL
  accountDirectory : GoURL
  unlock : List String
  authentication : VaultClientAuthentication
  tls : VaultClientTLS
deriving DecidableEq, Repr

/-- The standard-library parsers `json.Unmarshal` (into
`vaultClientJSON`) and `url.Parse`, as parameters. -/
structure ParseEnv where
  jsonUnmarshal : List Char → Except String VaultClientJSON
  urlParse : String → Except String GoURL

/-- Translation of `vaultClientAuthenticationJSON.vaultClientAuthentication`. -/
def VaultClientAuthenticationJSON.vaultClientAuthentication (env : ParseEnv)
    (c : VaultClientAuthenticationJSON) : Except String VaultClientAuthentication :=
  match env.urlParse c.token with
  | .error e => .error e
  | .ok token =>
    match env.urlParse c.roleId with
    | .error e => .error e
    | .ok roleId =>
      match env.urlParse c.secretId with
      | .error e => .error e
      | .ok secretId => .ok ⟨token, roleId, secretId, c.approlePath⟩

/-- Translation of `vaultClientTLSJSON.vaultClientTls`. -/
def VaultClientTLSJSON.vaultClientTls (env : ParseEnv)
    (c : VaultClientTLSJSON) : Except String VaultClientTLS :=
  match env.urlParse c.caCert with
  | .error e => .error e
  | .ok caCert =>
    match env.urlParse c.clientCert with
    | .error e => .error e
    | .ok clientCert =>
      match env.urlParse c.clientKey with
      | .error e => .error e
      | .ok clientKey => .ok ⟨caCert, clientCert, clientKey⟩

/-- Translation of `vaultClientJSON.vaultClient`. -/
def VaultClientJSON.vaultClient (env : ParseEnv) (c : VaultClientJSON) :
    Except String VaultClient :=
  match env.urlParse c.vault with
  | .error e => .error e
  | .ok vault =>
    match env.urlParse c.accountDirectory with
    | .error e => .error e
    | .ok accountDirectory =>
      match c.authentication.vaultClientAuthentication env with
      | .error e => .error e
      | .ok authentication =>
        match c.tls.vaultClientTls env with
        | .error e => .error e
        | .ok tls => .ok ⟨vault, accountDirectory, c.unlock, authentication, tls⟩

/-- Translation of `VaultClient.UnmarshalJSON`: the pair is the receiver
after the call and the returned error. -/
def VaultClient.unmarshalJSON (env : ParseEnv) (c : VaultClient)
    (b : List Char) : VaultClient × Option String :=
  match env.jsonUnmarshal b with
  | .error e => (c, some e)
  | .ok j =>
    match j.vaultClient env with
    | .error e => (c, some e)
    | .ok vc => (vc, none)

/-! ### List helpers for the index proofs -/

theorem mem_take_getD {l : List α} (d : α) :
    ∀ (i : Nat) (y : α), y ∈ l.take i → ∃ k, k < i ∧ k < l.length ∧ l.getD k d = y := by
  induction l with
  | nil => intro i y hy; simp [List.take_nil] at hy
  | cons x rest ih =>
    intro i y hy
    cases i with
    | zero => simp at hy
    | succ i =>
      simp only [List.take_succ_cons, List.mem_cons] at hy
      rcases hy with h | h
      · exact ⟨0, by omega, by simp, by simp [List.getD, h.symm]⟩
      · obtain ⟨k, hk1, hk2, hk3⟩ := ih i y h
        exact ⟨k + 1, by omega, by simp; omega, by simpa [List.getD] using hk3⟩

theorem mem_drop_getD {l : List α} (d : α) :
    ∀ (i : Nat) (y : α), y ∈ l.drop i → ∃ k, i ≤ k ∧ k < l.length ∧ l.getD k d = y := by
  induction l with
  | nil => intro i y hy; simp [List.drop_nil] at hy
  | cons x rest ih =>
    intro i y hy
    cases i with
    | zero =>
      simp only [List.drop_zero] at hy
      rcases List.mem_cons.mp hy with h | h
      · exact ⟨0, by omega, by simp, by simp [List.getD, h.symm]⟩
      · obtain ⟨k, hk1, hk2, hk3⟩ := ih 0 y h
        exact ⟨k + 1, by omega, by simp; omega, by simpa [List.getD] using hk3⟩
    | succ i =>
      simp only [List.drop_succ_cons] at hy
      obtain ⟨k, hk1, hk2, hk3⟩ := ih i y hy
      exact ⟨k + 1, by omega, by simp; omega, by simpa [List.getD] using hk3⟩

theorem getD_mem_of_lt {l : List α} {k : Nat} (d : α) (h : k < l.length) :
    l.getD k d ∈ l := by
  rw [List.getD_eq_getElem l d h]
  exact List.getElem_mem h

theorem take_getD_cons_drop {l : List α} (d : α) :
    ∀ (i : Nat), i < l.length → l = l.take i ++ l.getD i d :: l.drop (i + 1) := by
  induction l with
  | nil => intro i hi; simp at hi
  | cons x rest ih =>
    intro i hi
    cases i with
    | zero => simp [List.getD]
    | succ i =>
      simp only [List.length_cons] at hi
      have := ih i (by omega)
      simp only [List.take_succ_cons, List.drop_succ_cons, List.getD, List.get?]
      exact congrArg (x :: ·) (by simpa [List.getD] using this)

theorem removeAccount_eq_erase (l : List Account) (e : Account) :
    removeAccount l e = l.erase e := by
  induction l with
  | nil => simp [removeAccount]
  | cons x rest ih =>
    unfold removeAccount
    by_cases h : x = e
    · simp [List.erase_cons, h]
    · rw [if_neg h, List.erase_cons, if_neg (by simp [h] : ¬ ((x == e) = true))]
      exact congrArg (x :: ·) ih

/-! ### The `Add` search position on a sorted list -/

/-- The insertion index computed by `Add`. -/
def iAdd (s : CacheState) (a : Account) : Nat :=
  sortSearch s.all.length (addSearchPred s.all a)

theorem addSearchPred_iff {l : List Account} {x : Account} {k : Nat} :
    addSearchPred l x k = true ↔ x.url.le (l.getD k accountZero).url := by
  unfold addSearchPred URL.le
  rw [decide_eq_true_iff]
  constructor
  · intro h hc
    exact h (URL.cmp_swap.mpr hc)
  · intro h hc
    exact h (URL.cmp_swap.mp hc)

theorem addSearchPred_mono {l : List Account} (hs : SortedByURL l) (x : Account) :
    MonoPred (addSearchPred l x) l.length := by
  intro k hk hkt
  rw [addSearchPred_iff] at *
  have hadj : Account.urlLe (l.getD k accountZero) (l.getD (k + 1) accountZero) := by
    rw [List.getD_eq_getElem l accountZero (by omega),
      List.getD_eq_getElem l accountZero hk]
    exact List.pairwise_iff_get.mp hs ⟨k, by omega⟩ ⟨k + 1, hk⟩ (by simp)
  exact URL.le_trans hkt hadj

theorem iAdd_spec {s : CacheState} (hs : SortedByURL s.all) (a : Account) :
    iAdd s a ≤ s.all.length ∧
    (∀ k, k < iAdd s a → (s.all.getD k accountZero).url.cmp a.url = .lt) ∧
    (∀ k, iAdd s a ≤ k → k < s.all.length →
      a.url.le (s.all.getD k accountZero).url) := by
  obtain ⟨hlow, hhigh⟩ := sortSearch_char (addSearchPred_mono hs a)
  refine ⟨sortSearch_le _ _, ?_, ?_⟩
  · intro k hk
    have := hlow k hk
    have h2 : ¬ a.url.le (s.all.getD k accountZero).url := by
      rw [← addSearchPred_iff]
      simp [this]
    exact URL.lt_of_not_le h2
  · intro k hk1 hk2
    exact addSearchPred_iff.mp (hhigh k hk1 hk2)

/-- The two outcomes of `Add`, by the branch taken. -/
theorem Add_eq_self {s : CacheState} {a : Account} (f : String)
    (h : iAdd s a < s.all.length ∧ s.all.getD (iAdd s a) accountZero = a) :
    s.Add a f = s := by
  unfold iAdd at h
  simp only [CacheState.Add]
  rw [if_pos h]

theorem Add_eq_insert {s : CacheState} {a : Account} (f : String)
    (h : ¬ (iAdd s a < s.all.length ∧ s.all.getD (iAdd s a) accountZero = a)) :
    s.Add a f =
      { s with
        all := insertAt s.all (iAdd s a) a
        byAddr := mapSet s.byAddr a.address (byAddrGet s.byAddr a.address ++ [a])
        byFile := mapSet s.byFile f a } := by
  unfold iAdd at h
  simp only [CacheState.Add]
  rw [if_neg h]
  rfl

/-- On a sorted list, if `a` is present and URLs determine accounts among
the relevant elements, the search lands exactly on `a` and `Add` is a
no-op. -/
theorem iAdd_found_of_mem {s : CacheState} (hs : SortedByURL s.all) {a : Account}
    (hmem : a ∈ s.all) (hinj : ∀ y ∈ s.all, y.url = a.url → y = a) :
    iAdd s a < s.all.length ∧ s.all.getD (iAdd s a) accountZero = a := by
  obtain ⟨hle, hlow, hhigh⟩ := iAdd_spec hs a
  obtain ⟨⟨k, hk⟩, hget⟩ := List.mem_iff_get.mp hmem
  have hgetD : s.all.getD k accountZero = a := by
    rw [List.getD_eq_getElem s.all accountZero hk]
    simpa [List.get_eq_getElem] using hget
  have hknotlt : ¬ k < iAdd s a := by
    intro hcon
    have := hlow k hcon
    rw [hgetD, URL.cmp_self a.url] at this
    cases this
  have hilt : iAdd s a < s.all.length := by omega
  have h1 : a.url.le (s.all.getD (iAdd s a) accountZero).url :=
    hhigh (iAdd s a) (Nat.le_refl _) hilt
  have h2 : (s.all.getD (iAdd s a) accountZero).url.le a.url := by
    rcases Nat.eq_or_lt_of_le (Nat.le_of_not_lt hknotlt) with he | hlt
    · rw [he, hgetD]
      exact URL.le_refl a.url
    · have hpw := List.pairwise_iff_get.mp hs ⟨iAdd s a, hilt⟩ ⟨k, hk⟩ (by simpa using hlt)
      unfold Account.urlLe at hpw
      simp only [List.get_eq_getElem] at hpw
      rw [← List.getD_eq_getElem s.all accountZero hilt,
        ← List.getD_eq_getElem s.all accountZero hk, hgetD] at hpw
      exact hpw
  have hurl : (s.all.getD (iAdd s a) accountZero).url = a.url :=
    URL.eq_of_le_ge h2 h1
  exact ⟨hilt, hinj _ (getD_mem_of_lt accountZero hilt) hurl⟩

theorem insertAt_perm {l : List α} (i : Nat) (x : α) :
    (insertAt l i x).Perm (x :: l) := by
  unfold insertAt
  have h : (l.take i ++ x :: l.drop i).Perm (x :: (l.take i ++ l.drop i)) :=
    List.perm_middle
  rwa [List.take_append_drop] at h

theorem insertAt_sorted {l : List Account} {i : Nat} {x : Account}
    (hs : SortedByURL l) (_hi : i ≤ l.length)
    (hlow : ∀ k, k < i → (l.getD k accountZero).url.cmp x.url = .lt)
    (hhigh : ∀ k, i ≤ k → k < l.length → x.url.le (l.getD k accountZero).url) :
    SortedByURL (insertAt l i x) := by
  unfold insertAt SortedByURL
  rw [List.pairwise_append]
  refine ⟨List.Pairwise.sublist (List.take_sublist i l) hs, ?_, ?_⟩
  · rw [List.pairwise_cons]
    constructor
    · intro b hb
      obtain ⟨k, hk1, hk2, hk3⟩ := mem_drop_getD accountZero i b hb
      exact hk3 ▸ hhigh k hk1 hk2
    · exact List.Pairwise.sublist (List.drop_sublist i l) hs
  · intro a ha b hb
    obtain ⟨k, hk1, hk2, hk3⟩ := mem_take_getD accountZero i a ha
    have hax : a.url.le x.url := hk3 ▸ URL.le_of_cmp_lt (hlow k hk1)
    rcases List.mem_cons.mp hb with hbx | hbd
    · exact hbx ▸ hax
    · obtain ⟨k', hk1', hk2', hk3'⟩ := mem_drop_getD accountZero i b hbd
      exact URL.le_trans hax (hk3' ▸ hhigh k' hk1' hk2')

theorem Add_sorted {s : CacheState} (hs : SortedByURL s.all) (a : Account)
    (f : String) : SortedByURL (s.Add a f).all := by
  by_cases hc : iAdd s a < s.all.length ∧ s.all.getD (iAdd s a) accountZero = a
  · rw [Add_eq_self f hc]
    exact hs
  · rw [Add_eq_insert f hc]
    obtain ⟨hle, hlow, hhigh⟩ := iAdd_spec hs a
    exact insertAt_sorted hs hle hlow hhigh

theorem Add_all_mem {s : CacheState} {a y : Account} {f : String}
    (hy : y ∈ (s.Add a f).all) : y ∈ s.all ∨ y = a := by
  by_cases hc : iAdd s a < s.all.length ∧ s.all.getD (iAdd s a) accountZero = a
  · rw [Add_eq_self f hc] at hy
    exact Or.inl hy
  · rw [Add_eq_insert f hc] at hy
    have hp := insertAt_perm (l := s.all) (iAdd s a) a
    have := hp.mem_iff.mp hy
    rcases List.mem_cons.mp this with h | h
    · exact Or.inr h
    · exact Or.inl h

theorem Add_nodup {s : CacheState} {a : Account} (f : String)
    (hs : SortedByURL s.all) (hnd : s.all.Nodup)
    (hinj : ∀ y ∈ s.all, y.url = a.url → y = a) : (s.Add a f).all.Nodup := by
  by_cases hc : iAdd s a < s.all.length ∧ s.all.getD (iAdd s a) accountZero = a
  · rw [Add_eq_self f hc]
    exact hnd
  · rw [Add_eq_insert f hc]
    have hnotmem : a ∉ s.all := fun hmem => hc (iAdd_found_of_mem hs hmem hinj)
    have hp := insertAt_perm (l := s.all) (iAdd s a) a
    exact hp.nodup_iff.mpr (List.nodup_cons.mpr ⟨hnotmem, hnd⟩)

/-! ### The `deleteByFile` branches -/

/-- The account looked up for the path (the zero account when the path
is unknown). -/
def acctDel (s : CacheState) (path : String) : Account :=
  (mapGet s.byFile path).getD accountZero

/-- The index computed by `deleteByFile`'s `sort.Search`. -/
def iDel (s : CacheState) (path : String) : Nat :=
  sortSearch s.all.length (deleteSearchPred s.all (acctDel s path))

theorem del_eq_self {s : CacheState} {path : String}
    (h : ¬ (iDel s path < s.all.length ∧
      (s.all.getD (iDel s path) accountZero).url.path = (acctDel s path).url.path)) :
    s.deleteByFile path = s := by
  unfold iDel acctDel at h
  simp only [CacheState.deleteByFile]
  rw [if_neg h]

theorem del_eq_remove {s : CacheState} {path : String}
    (h : iDel s path < s.all.length ∧
      (s.all.getD (iDel s path) accountZero).url.path = (acctDel s path).url.path) :
    s.deleteByFile path =
      { s with
        all := s.all.take (iDel s path) ++ s.all.drop (iDel s path + 1)
        byAddr :=
          let removed := s.all.getD (iDel s path) accountZero
          let ba := removeAccount (byAddrGet s.byAddr removed.address) removed
          if ba.length = 0 then mapDel s.byAddr removed.address
          else mapSet s.byAddr removed.address ba
        byFile := mapDel s.byFile path } := by
  unfold iDel acctDel at h
  simp only [CacheState.deleteByFile]
  rw [if_pos h]
  rfl

theorem del_all_sublist (s : CacheState) (path : String) :
    (s.deleteByFile path).all.Sublist s.all := by
  by_cases h : iDel s path < s.all.length ∧
      (s.all.getD (iDel s path) accountZero).url.path = (acctDel s path).url.path
  · rw [del_eq_remove h]
    have hdec := take_getD_cons_drop accountZero (iDel s path) h.1
    have hsub : (s.all.take (iDel s path) ++ s.all.drop (iDel s path + 1)).Sublist
        (s.all.take (iDel s path) ++ s.all.getD (iDel s path) accountZero
          :: s.all.drop (iDel s path + 1)) :=
      List.Sublist.append_left (List.sublist_cons_self _ _) _
    rw [← hdec] at hsub
    exact hsub
  · rw [del_eq_self h]

/-! ### Invariants over operation sequences -/

theorem addsOf_cons_add (a : Account) (f : String) (ops : List CacheOp) :
    addsOf (.add a f :: ops) = (a, f) :: addsOf ops := by
  simp [addsOf]

theorem addsOf_cons_del (f : String) (ops : List CacheOp) :
    addsOf (.del f :: ops) = addsOf ops := by
  simp [addsOf]

theorem runOps_cons (s : CacheState) (op : CacheOp) (ops : List CacheOp) :
    runOps s (op :: ops) = runOps (applyOp s op) ops := rfl

/-- Distinct accounts among the added pairs never share a URL. -/
def AddsURLInj (A : List (Account × String)) : Prop :=
  ∀ p ∈ A, ∀ q ∈ A, p.1.url = q.1.url → p.1 = q.1

instance (A : List (Account × String)) : Decidable (AddsURLInj A) :=
  inferInstanceAs (Decidable (∀ p ∈ A, ∀ q ∈ A, p.1.url = q.1.url → p.1 = q.1))

theorem runOps_sorted (ops : List CacheOp) :
    ∀ s : CacheState, SortedByURL s.all → SortedByURL (runOps s ops).all := by
  induction ops with
  | nil => intro s hs; exact hs
  | cons op rest ih =>
    intro s hs
    rw [runOps_cons]
    refine ih _ ?_
    cases op with
    | add a f => exact Add_sorted hs a f
    | del f => exact List.Pairwise.sublist (del_all_sublist s f) hs

theorem runOps_nodup_aux (A : List (Account × String)) (hinj : AddsURLInj A) :
    ∀ (ops : List CacheOp) (s : CacheState),
      (∀ p ∈ addsOf ops, p ∈ A) → SortedByURL s.all → s.all.Nodup →
      (∀ y ∈ s.all, ∃ g, (y, g) ∈ A) →
      (runOps s ops).all.Nodup ∧ (∀ y ∈ (runOps s ops).all, ∃ g, (y, g) ∈ A) := by
  intro ops
  induction ops with
  | nil => intro s _ _ hnd hmem; exact ⟨hnd, hmem⟩
  | cons op rest ih =>
    intro s hsub hs hnd hmem
    rw [runOps_cons]
    cases op with
    | add a f =>
      have haf : (a, f) ∈ A := hsub (a, f) (by rw [addsOf_cons_add]; exact List.mem_cons_self _ _)
      have hinj2 : ∀ y ∈ s.all, y.url = a.url → y = a := by
        intro y hy hurl
        obtain ⟨g, hg⟩ := hmem y hy
        exact hinj (y, g) hg (a, f) haf hurl
      refine ih (s.Add a f) ?_ (Add_sorted hs a f) (Add_nodup f hs hnd hinj2) ?_
      · intro p hp
        exact hsub p (by rw [addsOf_cons_add]; exact List.mem_cons_of_mem _ hp)
      · intro y hy
        rcases Add_all_mem hy with h | h
        · exact hmem y h
        · exact ⟨f, h ▸ haf⟩
    | del f =>
      refine ih (s.deleteByFile f) ?_
        (List.Pairwise.sublist (del_all_sublist s f) hs)
        (List.Nodup.sublist (del_all_sublist s f) hnd) ?_
      · intro p hp
        exact hsub p (by rwa [addsOf_cons_del])
      · intro y hy
        exact hmem y ((del_all_sublist s f).mem hy)

/-! ### Claim C1 -/

/-- C1 (counterexample): the claim as stated is false.  From the empty
cache the sequence `Add(⟨1,u⟩,f1)`, `Add(⟨2,u⟩,f2)`, `Add(⟨1,u⟩,f3)` with
a shared URL `u` leaves a duplicate `(URL, Address)` entry in `all`:
`Add`'s duplicate check only inspects the single binary-search position,
which a different account with an equal URL can occupy. -/
theorem c1_counterexample :
    (runOps (emptyCache "keydir")
      [.add ⟨1, ⟨"hashicfg", "acct"⟩⟩ "f1", .add ⟨2, ⟨"hashicfg", "acct"⟩⟩ "f2",
       .add ⟨1, ⟨"hashicfg", "acct"⟩⟩ "f3"]).all =
      [⟨1, ⟨"hashicfg", "acct"⟩⟩, ⟨2, ⟨"hashicfg", "acct"⟩⟩,
       ⟨1, ⟨"hashicfg", "acct"⟩⟩] ∧
    ¬ (runOps (emptyCache "keydir")
      [.add ⟨1, ⟨"hashicfg", "acct"⟩⟩ "f1", .add ⟨2, ⟨"hashicfg", "acct"⟩⟩ "f2",
       .add ⟨1, ⟨"hashicfg", "acct"⟩⟩ "f3"]).all.Nodup := by
  constructor
  · rfl
  · decide

/-- C1 (amended): for every sequence of `Add`/`deleteByFile` operations
from the empty cache, `all` is sorted by the URL comparison order at all
times; it additionally contains no duplicate entries provided no two
distinct added accounts share a URL (the hypothesis the counterexample
forces). -/
theorem c1_sorted_nodup (keydir : String) (ops : List CacheOp) :
    SortedByURL (runOps (emptyCache keydir) ops).all ∧
    (AddsURLInj (addsOf ops) → (runOps (emptyCache keydir) ops).all.Nodup) := by
  constructor
  · exact runOps_sorted ops (emptyCache keydir) (List.Pairwise.nil)
  · intro hinj
    refine (runOps_nodup_aux (addsOf ops) hinj ops (emptyCache keydir)
      (fun p hp => hp) List.Pairwise.nil List.nodup_nil ?_).1
    intro y hy
    simp [emptyCache] at hy

/-- C1 (witness): the amended theorem applied to a concrete sequence
adding two accounts with distinct URLs and deleting one file. -/
theorem c1_sorted_nodup_witness :
    AddsURLInj (addsOf
      [.add ⟨1, ⟨"hashicfg", "a"⟩⟩ "f1", .add ⟨2, ⟨"hashicfg", "b"⟩⟩ "f2",
       CacheOp.del "f1"]) ∧
    (SortedByURL (runOps (emptyCache "keydir")
      [.add ⟨1, ⟨"hashicfg", "a"⟩⟩ "f1", .add ⟨2, ⟨"hashicfg", "b"⟩⟩ "f2",
       CacheOp.del "f1"]).all ∧
    (AddsURLInj (addsOf
      [.add ⟨1, ⟨"hashicfg", "a"⟩⟩ "f1", .add ⟨2, ⟨"hashicfg", "b"⟩⟩ "f2",
       CacheOp.del "f1"]) →
      (runOps (emptyCache "keydir")
        [.add ⟨1, ⟨"hashicfg", "a"⟩⟩ "f1", .add ⟨2, ⟨"hashicfg", "b"⟩⟩ "f2",
         CacheOp.del "f1"]).all.Nodup)) :=
  ⟨by decide, c1_sorted_nodup "keydir"
    [.add ⟨1, ⟨"hashicfg", "a"⟩⟩ "f1", .add ⟨2, ⟨"hashicfg", "b"⟩⟩ "f2",
     CacheOp.del "f1"]⟩

/-! ### Positional lemmas about `insertAt` -/

theorem length_insertAt {l : List α} (i : Nat) (x : α) :
    (insertAt l i x).length = l.length + 1 := by
  have h := (insertAt_perm (l := l) i x).length_eq
  simpa using h

theorem getD_append_left {l1 l2 : List α} (d : α) :
    ∀ k, k < l1.length → (l1 ++ l2).getD k d = l1.getD k d := by
  induction l1 with
  | nil => intro k hk; simp at hk
  | cons x rest ih =>
    intro k hk
    cases k with
    | zero => simp [List.getD]
    | succ k =>
      simp only [List.length_cons] at hk
      simpa [List.getD] using ih k (by omega)

theorem getD_append_length (l1 l2 : List α) (x d : α) :
    (l1 ++ x :: l2).getD l1.length d = x := by
  induction l1 with
  | nil => simp [List.getD]
  | cons y rest ih => simpa [List.getD] using ih

theorem getD_take {l : List α} (d : α) :
    ∀ i k, k < i → (l.take i).getD k d = l.getD k d := by
  induction l with
  | nil => intro i k _; simp
  | cons x rest ih =>
    intro i k hk
    cases i with
    | zero => omega
    | succ i =>
      cases k with
      | zero => simp [List.getD]
      | succ k => simpa [List.getD] using ih i k (by omega)

theorem insertAt_getD_lt {l : List α} {i k : Nat} (x d : α) (hk : k < i)
    (hi : i ≤ l.length) : (insertAt l i x).getD k d = l.getD k d := by
  unfold insertAt
  have hkt : k < (l.take i).length := by
    rw [List.length_take]
    omega
  rw [getD_append_left d k hkt]
  exact getD_take d i k hk

theorem insertAt_getD_self {l : List α} {i : Nat} (x d : α) (hi : i ≤ l.length) :
    (insertAt l i x).getD i d = x := by
  unfold insertAt
  have hlen : (l.take i).length = i := by rw [List.length_take]; omega
  have h := getD_append_length (l.take i) (l.drop i) x d
  rwa [hlen] at h

/-- After inserting `a` at its search position in a sorted list, the
search for `a` again lands exactly on that position. -/
theorem search_insert_eq {l : List Account} {i : Nat} {a : Account}
    (hi : i ≤ l.length)
    (hlow : ∀ k, k < i → (l.getD k accountZero).url.cmp a.url = .lt)
    (hsorted2 : SortedByURL (insertAt l i a)) :
    sortSearch (insertAt l i a).length (addSearchPred (insertAt l i a) a) = i := by
  obtain ⟨hl, hh⟩ := sortSearch_char (addSearchPred_mono hsorted2 a)
  set r := sortSearch (insertAt l i a).length (addSearchPred (insertAt l i a) a) with hr
  have hpi : addSearchPred (insertAt l i a) a i = true := by
    rw [addSearchPred_iff, insertAt_getD_self a accountZero hi]
    exact URL.le_refl a.url
  have hplow : ∀ k, k < i → addSearchPred (insertAt l i a) a k = false := by
    intro k hk
    cases hp : addSearchPred (insertAt l i a) a k
    · rfl
    · rw [addSearchPred_iff, insertAt_getD_lt a accountZero hk hi] at hp
      have := URL.cmp_swap.mp (hlow k hk)
      exact absurd this hp
  have hri : ¬ i < r := by
    intro hcon
    rw [hl i hcon] at hpi
    cases hpi
  have hir : ¬ r < i := by
    intro hcon
    have hrn : r < (insertAt l i a).length := by
      rw [length_insertAt]
      omega
    have := hh r (Nat.le_refl r) hrn
    rw [hplow r hcon] at this
    cases this
  omega

/-! ### Claim C5 -/

/-- C5 (counterexample): on an arbitrary (unsorted) cache state, `Add` is
not idempotent: the binary search is only meaningful on a sorted slice,
and on this 8-element unsorted state the second identical `Add` misses
the account and inserts it again. -/
theorem c5_counterexample :
    ((CacheState.Add ⟨"kd",
      [⟨1, ⟨"s", "a"⟩⟩, ⟨2, ⟨"s", "z"⟩⟩, ⟨3, ⟨"s", "z"⟩⟩, ⟨4, ⟨"s", "b"⟩⟩,
       ⟨5, ⟨"s", "z"⟩⟩, ⟨6, ⟨"s", "c"⟩⟩, ⟨7, ⟨"s", "d"⟩⟩, ⟨8, ⟨"s", "e"⟩⟩],
      [], []⟩ ⟨9, ⟨"s", "m"⟩⟩ "fx").Add ⟨9, ⟨"s", "m"⟩⟩ "fx") ≠
    CacheState.Add ⟨"kd",
      [⟨1, ⟨"s", "a"⟩⟩, ⟨2, ⟨"s", "z"⟩⟩, ⟨3, ⟨"s", "z"⟩⟩, ⟨4, ⟨"s", "b"⟩⟩,
       ⟨5, ⟨"s", "z"⟩⟩, ⟨6, ⟨"s", "c"⟩⟩, ⟨7, ⟨"s", "d"⟩⟩, ⟨8, ⟨"s", "e"⟩⟩],
      [], []⟩ ⟨9, ⟨"s", "m"⟩⟩ "fx" := by
  decide

/-- C5 (amended): `Add` is idempotent on every cache state whose `all`
list is sorted by URL — in particular on every reachable state, since the
code keeps `all` sorted (claim C1): adding the same account with the same
file path twice leaves `all`, `byAddr` and `byFile` exactly as after the
first call. -/
theorem c5_add_idempotent (s : CacheState) (a : Account) (f : String)
    (hs : SortedByURL s.all) : (s.Add a f).Add a f = s.Add a f := by
  by_cases hc : iAdd s a < s.all.length ∧ s.all.getD (iAdd s a) accountZero = a
  · rw [Add_eq_self f hc]
    exact Add_eq_self f hc
  · rw [Add_eq_insert f hc]
    obtain ⟨hle, hlow, hhigh⟩ := iAdd_spec hs a
    have hsorted2 : SortedByURL (insertAt s.all (iAdd s a) a) :=
      insertAt_sorted hs hle hlow hhigh
    have hsearch := search_insert_eq hle hlow hsorted2
    refine Add_eq_self f ?_
    constructor
    · show sortSearch (insertAt s.all (iAdd s a) a).length
        (addSearchPred (insertAt s.all (iAdd s a) a) a) < (insertAt s.all (iAdd s a) a).length
      rw [hsearch, length_insertAt]
      omega
    · show (insertAt s.all (iAdd s a) a).getD
        (sortSearch (insertAt s.all (iAdd s a) a).length
          (addSearchPred (insertAt s.all (iAdd s a) a) a)) accountZero = a
      rw [hsearch]
      exact insertAt_getD_self a accountZero hle

/-- C5 (witness): idempotence applied on a concrete sorted two-account
state. -/
theorem c5_add_idempotent_witness :
    SortedByURL (⟨"kd", [⟨1, ⟨"s", "a"⟩⟩, ⟨2, ⟨"s", "b"⟩⟩], [], []⟩ : CacheState).all ∧
    ((CacheState.Add ⟨"kd", [⟨1, ⟨"s", "a"⟩⟩, ⟨2, ⟨"s", "b"⟩⟩], [], []⟩
        ⟨3, ⟨"s", "ab"⟩⟩ "f3").Add ⟨3, ⟨"s", "ab"⟩⟩ "f3") =
      CacheState.Add ⟨"kd", [⟨1, ⟨"s", "a"⟩⟩, ⟨2, ⟨"s", "b"⟩⟩], [], []⟩
        ⟨3, ⟨"s", "ab"⟩⟩ "f3" :=
  ⟨by decide, c5_add_idempotent _ ⟨3, ⟨"s", "ab"⟩⟩ "f3" (by decide)⟩

/-! ### Claim C6 -/

/-- C6 (counterexample): `deleteByFile` on a path with no `byFile` entry
can mutate the cache.  The source logs the unknown path but does not
return: it continues with the zero-value account, whose empty URL path
matches a cached account with an empty URL path, which is then removed —
and the live `byFile` entry for it is left dangling. -/
theorem c6_counterexample :
    mapGet (runOps (emptyCache "kd") [.add ⟨1, ⟨"hashicfg", ""⟩⟩ "f1"]).byFile "f2" = none ∧
    (runOps (emptyCache "kd") [.add ⟨1, ⟨"hashicfg", ""⟩⟩ "f1"]).deleteByFile "f2" ≠
      runOps (emptyCache "kd") [.add ⟨1, ⟨"hashicfg", ""⟩⟩ "f1"] := by
  decide

/-- C6 (amended): `deleteByFile` on a path with no `byFile` entry leaves
`all`, `byAddr` and `byFile` unchanged, provided no cached account has an
empty URL path (true of every account parsed from a real config file; the
counterexample forces this proviso). -/
theorem delete_unknown_noop_aux (s : CacheState) (path : String)
    (hmiss : mapGet s.byFile path = none)
    (hpaths : ∀ x ∈ s.all, x.url.path ≠ "") : s.deleteByFile path = s := by
  refine del_eq_self ?_
  intro ⟨hlt, heq⟩
  have hzero : acctDel s path = accountZero := by
    unfold acctDel
    rw [hmiss]
    rfl
  rw [hzero] at heq
  exact hpaths _ (getD_mem_of_lt accountZero hlt) heq

theorem c6_delete_unknown_noop (s : CacheState) (path : String)
    (hmiss : mapGet s.byFile path = none)
    (hpaths : ∀ x ∈ s.all, x.url.path ≠ "") : s.deleteByFile path = s :=
  delete_unknown_noop_aux s path hmiss hpaths

/-- C6 (witness): the no-op theorem applied to a concrete state with one
account with a non-empty path and an unknown path. -/
theorem c6_delete_unknown_noop_witness :
    mapGet (⟨"kd", [⟨1, ⟨"s", "a"⟩⟩], [(1, [⟨1, ⟨"s", "a"⟩⟩])],
        [("f1", ⟨1, ⟨"s", "a"⟩⟩)]⟩ : CacheState).byFile "f9" = none ∧
    CacheState.deleteByFile
        ⟨"kd", [⟨1, ⟨"s", "a"⟩⟩], [(1, [⟨1, ⟨"s", "a"⟩⟩])], [("f1", ⟨1, ⟨"s", "a"⟩⟩)]⟩ "f9" =
      ⟨"kd", [⟨1, ⟨"s", "a"⟩⟩], [(1, [⟨1, ⟨"s", "a"⟩⟩])], [("f1", ⟨1, ⟨"s", "a"⟩⟩)]⟩ :=
  ⟨by decide, c6_delete_unknown_noop _ "f9" (by decide) (by decide)⟩

/-! ### Claims C3 and C4 -/

/-- Spec-side description of `find`'s candidate restriction: "If Address
is non-zero, restrict candidates to byAddress[Address]; else candidates =
full set". -/
def specFindCandidates (s : CacheState) (a : Account) : List Account :=
  if a.address ≠ 0 then byAddrGet s.byAddr a.address else s.all

/-- Spec-side description of query-URL completion: a path with no
directory separator is resolved relative to the cache's root directory
first. -/
def specCompletedURL (s : CacheState) (a : Account) : URL :=
  if stringContainsRune a.url.path filepathSeparator then a.url
  else ⟨a.url.scheme, filepathJoin s.keydir a.url.path⟩

theorem firstURLMatch_eq_find (l : List Account) (u : URL) :
    firstURLMatch l u = l.find? (fun y => y.url == u) := by
  induction l with
  | nil => simp [firstURLMatch]
  | cons m rest ih =>
    by_cases h : m.url = u
    · simp [firstURLMatch, List.find?, h]
    · have hb : (m.url == u) = false := beq_eq_false_iff_ne.mpr h
      simp [firstURLMatch, List.find?, h, hb, ih]

theorem sortByURL_perm (l : List Account) : (sortByURL l).Perm l :=
  List.perm_insertionSort Account.urlLe l

theorem sortByURL_sorted (l : List Account) :
    (sortByURL l).Pairwise Account.urlLe :=
  List.sorted_insertionSort Account.urlLe l

/-- The completed query account used inside `Find`. -/
theorem find_completed_query (s : CacheState) (a : Account)
    (hpath : a.url.path ≠ "") :
    (if a.url.path ≠ "" ∧ ¬ stringContainsRune a.url.path filepathSeparator
      then { a with url := ⟨a.url.scheme, filepathJoin s.keydir a.url.path⟩ }
      else a) = ⟨a.address, specCompletedURL s a⟩ := by
  unfold specCompletedURL
  by_cases hc : stringContainsRune a.url.path filepathSeparator
  · rw [if_neg (fun hh => hh.2 hc), if_pos hc]
  · rw [if_pos ⟨hpath, hc⟩, if_neg hc]

/-- C3: for every cache state and query, `Find` restricts candidates to
`byAddr[Address]` when the address is non-zero and to the full list
otherwise; with a non-empty URL path (completed against the cache root
when it has no separator), the first exact URL match among the candidates
is returned immediately, and with a zero address and no URL match `Find`
fails with `ErrNoMatch`. -/
theorem c3_find_path_query (s : CacheState) (a : Account)
    (hpath : a.url.path ≠ "") :
    (∀ m, (specFindCandidates s a).find? (fun y => y.url == specCompletedURL s a) =
        some m → s.Find a = .ok m) ∧
    ((specFindCandidates s a).find? (fun y => y.url == specCompletedURL s a) = none →
      a.address = 0 → s.Find a = .error .noMatch) := by
  have hq := find_completed_query s a hpath
  simp only [CacheState.Find, hq, if_pos hpath]
  constructor
  · intro m hm
    unfold specFindCandidates at hm
    rw [← firstURLMatch_eq_find] at hm
    rw [hm]
  · intro hnone hzero
    unfold specFindCandidates at hnone
    rw [← firstURLMatch_eq_find] at hnone
    rw [hnone, if_pos hzero]

/-- C3 (witness): on a two-account cache, a query with a zero address and
an exact URL path is resolved to the matching account. -/
theorem c3_find_path_query_witness :
    ((⟨0, ⟨"s", "kd/b"⟩⟩ : Account).url.path ≠ "") ∧
    CacheState.Find
      ⟨"kd", [⟨1, ⟨"s", "kd/a"⟩⟩, ⟨2, ⟨"s", "kd/b"⟩⟩],
        [(1, [⟨1, ⟨"s", "kd/a"⟩⟩]), (2, [⟨2, ⟨"s", "kd/b"⟩⟩])], []⟩
      ⟨0, ⟨"s", "kd/b"⟩⟩ = .ok ⟨2, ⟨"s", "kd/b"⟩⟩ :=
  ⟨by decide,
    (c3_find_path_query
      ⟨"kd", [⟨1, ⟨"s", "kd/a"⟩⟩, ⟨2, ⟨"s", "kd/b"⟩⟩],
        [(1, [⟨1, ⟨"s", "kd/a"⟩⟩]), (2, [⟨2, ⟨"s", "kd/b"⟩⟩])], []⟩
      ⟨0, ⟨"s", "kd/b"⟩⟩ (by decide)).1 ⟨2, ⟨"s", "kd/b"⟩⟩ (by decide)⟩

/-- `Find` falls through to the cardinality switch when no URL path is
given, or when the URL scan found nothing and an address was given. -/
theorem find_fallthrough (s : CacheState) (a : Account)
    (hfall : a.url.path = "" ∨
      ((specFindCandidates s a).find? (fun y => y.url == specCompletedURL s a) = none ∧
        a.address ≠ 0)) :
    s.Find a =
      (if (specFindCandidates s a).length = 1 then
        .ok ((specFindCandidates s a).getD 0 accountZero)
      else if (specFindCandidates s a).length = 0 then .error .noMatch
      else .error (.ambiguousAddr a.address (sortByURL (specFindCandidates s a)))) := by
  by_cases hpath : a.url.path = ""
  · simp only [CacheState.Find]
    rw [if_neg (show ¬ (a.url.path ≠ "") from fun hh => hh hpath),
      if_neg (show ¬ (a.url.path ≠ "" ∧
        ¬ stringContainsRune a.url.path filepathSeparator) from fun hh => hh.1 hpath)]
    rfl
  · rcases hfall with h | ⟨hnone, haddr⟩
    · exact absurd h hpath
    · have hq := find_completed_query s a hpath
      simp only [CacheState.Find, hq, if_pos hpath]
      unfold specFindCandidates at hnone
      rw [← firstURLMatch_eq_find] at hnone
      rw [hnone, if_neg haddr]
      rfl

/-- C4: when `Find` falls through to resolution by candidate cardinality,
zero candidates yields `ErrNoMatch`, exactly one candidate is returned,
and more than one yields an `AmbiguousAddrError` whose `Matches` are the
candidates sorted by URL (deterministically: `Find` is a pure function of
the cache state and the query, and `Matches` is determined as the sorted
permutation below). -/
theorem c4_find_cardinality (s : CacheState) (a : Account)
    (hfall : a.url.path = "" ∨
      ((specFindCandidates s a).find? (fun y => y.url == specCompletedURL s a) = none ∧
        a.address ≠ 0)) :
    (specFindCandidates s a = [] → s.Find a = .error .noMatch) ∧
    (∀ m, specFindCandidates s a = [m] → s.Find a = .ok m) ∧
    (1 < (specFindCandidates s a).length →
      s.Find a = .error (.ambiguousAddr a.address (sortByURL (specFindCandidates s a))) ∧
      (sortByURL (specFindCandidates s a)).Perm (specFindCandidates s a) ∧
      (sortByURL (specFindCandidates s a)).Pairwise Account.urlLe) := by
  have hred := find_fallthrough s a hfall
  refine ⟨?_, ?_, ?_⟩
  · intro h0
    rw [hred, h0]
    rfl
  · intro m hm
    rw [hred, hm]
    rfl
  · intro hlen
    refine ⟨?_, sortByURL_perm _, sortByURL_sorted _⟩
    rw [hred, if_neg (by omega), if_neg (by omega)]

/-- C4 (witness): two accounts share address 2; the address-only query
fails with the ambiguous error carrying both candidates sorted by URL
(`byAddr` deliberately holds them out of order). -/
theorem c4_find_cardinality_witness :
    (1 < (specFindCandidates
      ⟨"kd", [⟨2, ⟨"s", "kd/b"⟩⟩, ⟨2, ⟨"s", "kd/c"⟩⟩],
        [(2, [⟨2, ⟨"s", "kd/c"⟩⟩, ⟨2, ⟨"s", "kd/b"⟩⟩])], []⟩
      ⟨2, ⟨"s", ""⟩⟩).length) ∧
    CacheState.Find
      ⟨"kd", [⟨2, ⟨"s", "kd/b"⟩⟩, ⟨2, ⟨"s", "kd/c"⟩⟩],
        [(2, [⟨2, ⟨"s", "kd/c"⟩⟩, ⟨2, ⟨"s", "kd/b"⟩⟩])], []⟩
      ⟨2, ⟨"s", ""⟩⟩ =
      .error (.ambiguousAddr 2 [⟨2, ⟨"s", "kd/b"⟩⟩, ⟨2, ⟨"s", "kd/c"⟩⟩]) := by
  have h := (c4_find_cardinality
    ⟨"kd", [⟨2, ⟨"s", "kd/b"⟩⟩, ⟨2, ⟨"s", "kd/c"⟩⟩],
      [(2, [⟨2, ⟨"s", "kd/c"⟩⟩, ⟨2, ⟨"s", "kd/b"⟩⟩])], []⟩
    ⟨2, ⟨"s", ""⟩⟩ (Or.inl rfl)).2.2 (by decide)
  exact ⟨by decide, h.1.trans (by rfl)⟩

/-! ### Claim C7 -/

/-- C7: the code evaluated at the failing schedule.  With no watcher
running, `MaybeReload` at `t = 0` (fresh cache) scans, and a second call
at `t = 1` — inside the 2-second minimum reload interval — scans again:
the zero-duration initial timer fired immediately and `Timer.Reset` (Go
before 1.23, as pinned by this repository) does not drain the timer's
channel, so the second call's `select` consumes the stale fire.  A third
call at `t = 2` is throttled, and a call at `t = 3`, after the interval
from the last reset has elapsed, scans again. -/
theorem c7_throttle_stale_fire :
    ((freshWatchState.maybeReload 0).maybeReload 1).scans = 2 ∧
    (((freshWatchState.maybeReload 0).maybeReload 1).maybeReload 2).scans = 2 ∧
    ((((freshWatchState.maybeReload 0).maybeReload 1).maybeReload 2).maybeReload 3).scans
      = 3 := by
  decide

/-! ### Claim C8 -/

theorem goTimerStop_map_idem (o : Option GoTimer) :
    (o.map GoTimer.stop).map GoTimer.stop = o.map GoTimer.stop := by
  cases o <;> rfl

theorem goTimerStop_comp : GoTimer.stop ∘ GoTimer.stop = GoTimer.stop :=
  funext fun _ => rfl

/-- C8: `Close` is safe to call repeatedly.  For every lifecycle state
whose notification channel is nil or open (every state the code can
reach: the only close of the channel also nils the field), the first
`Close` succeeds and nils the channel, and a second `Close` succeeds
without closing anything — it is a no-op. -/
theorem c8_close_twice (s : WatchState) (h : s.notify ≠ some true) :
    ∃ s1, s.Close = some s1 ∧ s1.notify = none ∧ s1.Close = some s1 := by
  cases hn : s.notify with
  | none =>
    refine ⟨⟨false, s.throttle.map GoTimer.stop, none, s.scans⟩, ?_, rfl, ?_⟩
    · unfold WatchState.Close
      simp [hn]
    · unfold WatchState.Close
      simp [goTimerStop_map_idem, goTimerStop_comp]
  | some closed =>
    cases closed with
    | true => exact absurd hn h
    | false =>
      refine ⟨⟨false, s.throttle.map GoTimer.stop, none, s.scans⟩, ?_, rfl, ?_⟩
      · unfold WatchState.Close
        simp [hn]
      · unfold WatchState.Close
        simp [goTimerStop_map_idem, goTimerStop_comp]

/-- C8 (witness): double close on a fresh cache's lifecycle state. -/
theorem c8_close_twice_witness :
    freshWatchState.notify ≠ some true ∧
    ∃ s1, freshWatchState.Close = some s1 ∧ s1.notify = none ∧ s1.Close = some s1 :=
  ⟨by decide, c8_close_twice freshWatchState (by decide)⟩

/-! ### Claim C9 -/

/-- C9: `Accounts()` returns a defensive copy.  The returned slice holds
exactly the elements of the internal `all` slice at the time of the call,
lives in a fresh cell distinct from the internal one, and writing
anything through the returned slice leaves the cache's `all` cell
unchanged. -/
theorem c9_accounts_defensive_copy (h : SliceHeap) (allId : Nat)
    (hlt : allId < h.cells.length) :
    ((accountsCopy h allId).1.read (accountsCopy h allId).2 = h.read allId) ∧
    ((accountsCopy h allId).2 ≠ allId) ∧
    (∀ v, ((accountsCopy h allId).1.write (accountsCopy h allId).2 v).read allId
      = h.read allId) := by
  refine ⟨?_, ?_, ?_⟩
  · show (h.cells ++ [h.read allId]).getD h.cells.length [] = h.read allId
    exact getD_append_length h.cells [] (h.read allId) []
  · show h.cells.length ≠ allId
    omega
  · intro v
    show ((h.cells ++ [h.read allId]).set h.cells.length v).getD allId [] = h.cells.getD allId []
    rw [List.getD_eq_getElem?_getD, List.getD_eq_getElem?_getD,
      List.getElem?_set_ne (by omega)]
    rw [List.getElem?_append_left hlt]

/-- C9 (witness): the copy theorem on a one-cell heap. -/
theorem c9_accounts_defensive_copy_witness :
    (0 < (SliceHeap.mk [[⟨1, ⟨"s", "a"⟩⟩]]).cells.length) ∧
    (((accountsCopy ⟨[[⟨1, ⟨"s", "a"⟩⟩]]⟩ 0).1.read (accountsCopy ⟨[[⟨1, ⟨"s", "a"⟩⟩]]⟩ 0).2 =
        SliceHeap.read ⟨[[⟨1, ⟨"s", "a"⟩⟩]]⟩ 0) ∧
      ((accountsCopy ⟨[[⟨1, ⟨"s", "a"⟩⟩]]⟩ 0).2 ≠ 0) ∧
      (∀ v, ((accountsCopy ⟨[[⟨1, ⟨"s", "a"⟩⟩]]⟩ 0).1.write
          (accountsCopy ⟨[[⟨1, ⟨"s", "a"⟩⟩]]⟩ 0).2 v).read 0 =
        SliceHeap.read ⟨[[⟨1, ⟨"s", "a"⟩⟩]]⟩ 0)) :=
  ⟨by decide, c9_accounts_defensive_copy ⟨[[⟨1, ⟨"s", "a"⟩⟩]]⟩ 0 (by decide)⟩

/-! ### Claim C10 -/

theorem unmarshalJSON_err (env : ParseEnv) (c : VaultClient) (b : List Char)
    (e : String) (hj : env.jsonUnmarshal b = .error e) :
    VaultClient.unmarshalJSON env c b = (c, some e) := by
  unfold VaultClient.unmarshalJSON
  rw [hj]

theorem unmarshalJSON_ok_err (env : ParseEnv) (c : VaultClient) (b : List Char)
    (j : VaultClientJSON) (e : String) (hj : env.jsonUnmarshal b = .ok j)
    (hv : j.vaultClient env = .error e) :
    VaultClient.unmarshalJSON env c b = (c, some e) := by
  unfold VaultClient.unmarshalJSON
  rw [hj]
  show (match j.vaultClient env with
    | .error e => (c, some e)
    | .ok vc => (vc, none)) = (c, some e)
  rw [hv]

theorem unmarshalJSON_ok_ok (env : ParseEnv) (c : VaultClient) (b : List Char)
    (j : VaultClientJSON) (vc : VaultClient) (hj : env.jsonUnmarshal b = .ok j)
    (hv : j.vaultClient env = .ok vc) :
    VaultClient.unmarshalJSON env c b = (vc, none) := by
  unfold VaultClient.unmarshalJSON
  rw [hj]
  show (match j.vaultClient env with
    | .error e => (c, some e)
    | .ok vc => (vc, none)) = (vc, none)
  rw [hv]

/-- C10: `VaultClient.UnmarshalJSON` is atomic on error: for every
receiver, every input and every behaviour of the standard-library parsers
(`json.Unmarshal`, `url.Parse`), a failing call leaves the receiver
exactly as it was, and a successful call overwrites it with exactly the
fully parsed value. -/
theorem c10_unmarshal_atomic (env : ParseEnv) (c : VaultClient) (b : List Char) :
    (∀ e, (VaultClient.unmarshalJSON env c b).2 = some e →
      (VaultClient.unmarshalJSON env c b).1 = c) ∧
    ((VaultClient.unmarshalJSON env c b).2 = none →
      ∃ j vc, env.jsonUnmarshal b = .ok j ∧ j.vaultClient env = .ok vc ∧
        (VaultClient.unmarshalJSON env c b).1 = vc) := by
  rcases hj : env.jsonUnmarshal b with e | j
  · rw [unmarshalJSON_err env c b e hj]
    refine ⟨fun _ _ => rfl, fun hc => ?_⟩
    simp at hc
  · rcases hv : j.vaultClient env with e | vc
    · rw [unmarshalJSON_ok_err env c b j e hj hv]
      refine ⟨fun _ _ => rfl, fun hc => ?_⟩
      simp at hc
    · rw [unmarshalJSON_ok_ok env c b j vc hj hv]
      exact ⟨fun e2 he2 => by simp at he2, fun _ => ⟨j, vc, rfl, hv, rfl⟩⟩

/-- C10 (witness): a failing `json.Unmarshal` leaves a concrete receiver
unchanged. -/
theorem c10_unmarshal_atomic_witness :
    (VaultClient.unmarshalJSON ⟨fun _ => .error "bad json", fun u => .ok ⟨u⟩⟩
      ⟨⟨"v"⟩, ⟨"d"⟩, ["u1"], ⟨⟨"t"⟩, ⟨"r"⟩, ⟨"sid"⟩, "ap"⟩, ⟨⟨"ca"⟩, ⟨"cc"⟩, ⟨"ck"⟩⟩⟩
      "x".data).2 = some "bad json" ∧
    (VaultClient.unmarshalJSON ⟨fun _ => .error "bad json", fun u => .ok ⟨u⟩⟩
      ⟨⟨"v"⟩, ⟨"d"⟩, ["u1"], ⟨⟨"t"⟩, ⟨"r"⟩, ⟨"sid"⟩, "ap"⟩, ⟨⟨"ca"⟩, ⟨"cc"⟩, ⟨"ck"⟩⟩⟩
      "x".data).1 =
      ⟨⟨"v"⟩, ⟨"d"⟩, ["u1"], ⟨⟨"t"⟩, ⟨"r"⟩, ⟨"sid"⟩, "ap"⟩, ⟨⟨"ca"⟩, ⟨"cc"⟩, ⟨"ck"⟩⟩⟩ :=
  ⟨rfl, (c10_unmarshal_atomic ⟨fun _ => .error "bad json", fun u => .ok ⟨u⟩⟩
    ⟨⟨"v"⟩, ⟨"d"⟩, ["u1"], ⟨⟨"t"⟩, ⟨"r"⟩, ⟨"sid"⟩, "ap"⟩, ⟨⟨"ca"⟩, ⟨"cc"⟩, ⟨"ck"⟩⟩⟩
    "x".data).1 "bad json" rfl⟩

/-! ### More association-list lemmas (for claim C2) -/

/-- Keys of a Go map are distinct; all states built by the cache
operations keep this. -/
def keysND (m : List (κ × ν)) : Prop := (m.map Prod.fst).Nodup

theorem mem_mapSet [DecidableEq κ] {m : List (κ × ν)} {k : κ} {v : ν} :
    ∀ e ∈ mapSet m k v, e = (k, v) ∨ e ∈ m := by
  induction m with
  | nil =>
    intro e he
    simp only [mapSet, List.mem_singleton] at he
    exact Or.inl he
  | cons e0 rest ih =>
    obtain ⟨k0, v0⟩ := e0
    intro e he
    unfold mapSet at he
    by_cases h0 : k0 = k
    · rw [if_pos h0] at he
      rcases List.mem_cons.mp he with h | h
      · exact Or.inl h
      · exact Or.inr (List.mem_cons_of_mem _ h)
    · rw [if_neg h0] at he
      rcases List.mem_cons.mp he with h | h
      · exact Or.inr (h ▸ List.mem_cons_self _ _)
      · rcases ih e h with h2 | h2
        · exact Or.inl h2
        · exact Or.inr (List.mem_cons_of_mem _ h2)

theorem mem_mapSet_self [DecidableEq κ] (m : List (κ × ν)) (k : κ) (v : ν) :
    (k, v) ∈ mapSet m k v := by
  induction m with
  | nil => simp [mapSet]
  | cons e0 rest ih =>
    obtain ⟨k0, v0⟩ := e0
    unfold mapSet
    by_cases h0 : k0 = k
    · rw [if_pos h0]
      exact List.mem_cons_self _ _
    · rw [if_neg h0]
      exact List.mem_cons_of_mem _ ih

theorem mem_mapSet_of_ne [DecidableEq κ] {m : List (κ × ν)} {e : κ × ν}
    (he : e ∈ m) (k : κ) (v : ν) (hne : e.1 ≠ k) : e ∈ mapSet m k v := by
  induction m with
  | nil => cases he
  | cons e0 rest ih =>
    obtain ⟨k0, v0⟩ := e0
    unfold mapSet
    by_cases h0 : k0 = k
    · rw [if_pos h0]
      rcases List.mem_cons.mp he with h | h
      · exact absurd (by rw [h] at hne ⊢; exact h0) hne
      · exact List.mem_cons_of_mem _ h
    · rw [if_neg h0]
      rcases List.mem_cons.mp he with h | h
      · exact h ▸ List.mem_cons_self _ _
      · exact List.mem_cons_of_mem _ (ih h)

theorem mem_of_mapGet [DecidableEq κ] {m : List (κ × ν)} {k : κ} {v : ν}
    (h : mapGet m k = some v) : (k, v) ∈ m := by
  induction m with
  | nil => cases h
  | cons e0 rest ih =>
    obtain ⟨k0, v0⟩ := e0
    unfold mapGet at h
    by_cases h0 : k0 = k
    · rw [if_pos h0] at h
      cases h
      exact h0 ▸ List.mem_cons_self _ _
    · rw [if_neg h0] at h
      exact List.mem_cons_of_mem _ (ih h)

theorem mapGet_of_mem [DecidableEq κ] {m : List (κ × ν)} {k : κ} {v : ν}
    (hnd : keysND m) (h : (k, v) ∈ m) : mapGet m k = some v := by
  induction m with
  | nil => cases h
  | cons e0 rest ih =>
    obtain ⟨k0, v0⟩ := e0
    unfold keysND at hnd
    simp only [List.map_cons, List.nodup_cons] at hnd
    unfold mapGet
    rcases List.mem_cons.mp h with h1 | h1
    · cases h1
      rw [if_pos rfl]
    · by_cases h0 : k0 = k
      · exact absurd (h0 ▸ List.mem_map_of_mem Prod.fst h1) hnd.1
      · rw [if_neg h0]
        exact ih hnd.2 h1

theorem mem_mapDel [DecidableEq κ] {m : List (κ × ν)} {k : κ} :
    ∀ e ∈ mapDel m k, e ∈ m := by
  induction m with
  | nil => intro e he; cases he
  | cons e0 rest ih =>
    obtain ⟨k0, v0⟩ := e0
    intro e he
    unfold mapDel at he
    by_cases h0 : k0 = k
    · rw [if_pos h0] at he
      exact List.mem_cons_of_mem _ he
    · rw [if_neg h0] at he
      rcases List.mem_cons.mp he with h | h
      · exact h ▸ List.mem_cons_self _ _
      · exact List.mem_cons_of_mem _ (ih e h)

theorem mem_mapDel_of_ne [DecidableEq κ] {m : List (κ × ν)} {e : κ × ν} {k : κ}
    (he : e ∈ m) (hne : e.1 ≠ k) : e ∈ mapDel m k := by
  induction m with
  | nil => cases he
  | cons e0 rest ih =>
    obtain ⟨k0, v0⟩ := e0
    unfold mapDel
    by_cases h0 : k0 = k
    · rw [if_pos h0]
      rcases List.mem_cons.mp he with h | h
      · exact absurd (by rw [h] at hne; exact absurd h0 hne) id
      · exact h
    · rw [if_neg h0]
      rcases List.mem_cons.mp he with h | h
      · exact h ▸ List.mem_cons_self _ _
      · exact List.mem_cons_of_mem _ (ih h)

theorem mem_mapDel_ne_key [DecidableEq κ] {m : List (κ × ν)} {k : κ}
    (hnd : keysND m) : ∀ e ∈ mapDel m k, e.1 ≠ k := by
  induction m with
  | nil => intro e he; cases he
  | cons e0 rest ih =>
    obtain ⟨k0, v0⟩ := e0
    unfold keysND at hnd
    simp only [List.map_cons, List.nodup_cons] at hnd
    intro e he
    unfold mapDel at he
    by_cases h0 : k0 = k
    · rw [if_pos h0] at he
      intro hek
      exact hnd.1 (h0 ▸ hek ▸ List.mem_map_of_mem Prod.fst he)
    · rw [if_neg h0] at he
      rcases List.mem_cons.mp he with h | h
      · rw [h]
        exact h0
      · exact ih hnd.2 e h

theorem mapSet_keys [DecidableEq κ] (m : List (κ × ν)) (k : κ) (v : ν) :
    (mapSet m k v).map Prod.fst =
      if k ∈ m.map Prod.fst then m.map Prod.fst else m.map Prod.fst ++ [k] := by
  induction m with
  | nil => simp [mapSet]
  | cons e0 rest ih =>
    obtain ⟨k0, v0⟩ := e0
    unfold mapSet
    by_cases h0 : k0 = k
    · rw [if_pos h0]
      simp [h0]
    · rw [if_neg h0]
      simp only [List.map_cons]
      by_cases hk : k ∈ rest.map Prod.fst
      · rw [if_pos (List.mem_cons_of_mem _ hk), ih, if_pos hk]
      · rw [if_neg (fun hc => by
          rcases List.mem_cons.mp hc with h | h
          · exact h0 h.symm
          · exact hk h), ih, if_neg hk]
        rfl

theorem keysND_mapSet [DecidableEq κ] {m : List (κ × ν)} (k : κ) (v : ν)
    (hnd : keysND m) : keysND (mapSet m k v) := by
  unfold keysND at hnd ⊢
  rw [mapSet_keys]
  by_cases hk : k ∈ m.map Prod.fst
  · rw [if_pos hk]
    exact hnd
  · rw [if_neg hk]
    simp [List.nodup_append, hnd, hk]

theorem mapDel_keys_sublist [DecidableEq κ] (m : List (κ × ν)) (k : κ) :
    ((mapDel m k).map Prod.fst).Sublist (m.map Prod.fst) := by
  induction m with
  | nil => simp [mapDel]
  | cons e0 rest ih =>
    obtain ⟨k0, v0⟩ := e0
    unfold mapDel
    by_cases h0 : k0 = k
    · rw [if_pos h0]
      simp only [List.map_cons]
      exact List.sublist_cons_self _ _
    · rw [if_neg h0]
      simp only [List.map_cons]
      exact ih.cons₂ k0

theorem keysND_mapDel [DecidableEq κ] {m : List (κ × ν)} (k : κ)
    (hnd : keysND m) : keysND (mapDel m k) :=
  List.Nodup.sublist (mapDel_keys_sublist m k) hnd

/-! ### Claim C2, part I2: `byAddr` consistency -/

theorem byAddrGet_mapSet_self (m : List (Address × List Account)) (addr : Address)
    (v : List Account) : byAddrGet (mapSet m addr v) addr = v := by
  unfold byAddrGet
  rw [mapGet_mapSet_self]
  rfl

theorem byAddrGet_mapSet_ne (m : List (Address × List Account)) {addr addr' : Address}
    (v : List Account) (h : addr' ≠ addr) :
    byAddrGet (mapSet m addr v) addr' = byAddrGet m addr' := by
  unfold byAddrGet
  rw [mapGet_mapSet_ne _ _ h]

theorem byAddrGet_mapDel_self (m : List (Address × List Account)) (addr : Address)
    (hnd : keysND m) : byAddrGet (mapDel m addr) addr = [] := by
  unfold byAddrGet
  rw [mapGet_mapDel_self _ _ hnd]
  rfl

theorem byAddrGet_mapDel_ne (m : List (Address × List Account)) {addr addr' : Address}
    (h : addr' ≠ addr) : byAddrGet (mapDel m addr) addr' = byAddrGet m addr' := by
  unfold byAddrGet
  rw [mapGet_mapDel_ne _ h]

/-- Invariant I2: distinct `byAddr` keys, each address's list a
permutation of the accounts in `all` with that address, and no key
mapping to an empty list. -/
def AddrInv (s : CacheState) : Prop :=
  keysND s.byAddr ∧
  (∀ addr, (byAddrGet s.byAddr addr).Perm
    (s.all.filter (fun y => y.address == addr))) ∧
  (∀ e ∈ s.byAddr, e.2 ≠ [])

theorem AddrInv_add (s : CacheState) (a : Account) (f : String)
    (h : AddrInv s) : AddrInv (s.Add a f) := by
  obtain ⟨hnd, hperm, hne⟩ := h
  by_cases hc : iAdd s a < s.all.length ∧ s.all.getD (iAdd s a) accountZero = a
  · rw [Add_eq_self f hc]
    exact ⟨hnd, hperm, hne⟩
  · rw [Add_eq_insert f hc]
    refine ⟨keysND_mapSet _ _ hnd, ?_, ?_⟩
    · intro addr
      show (byAddrGet (mapSet s.byAddr a.address (byAddrGet s.byAddr a.address ++ [a])) addr).Perm
        ((insertAt s.all (iAdd s a) a).filter (fun y => y.address == addr))
      by_cases haddr : addr = a.address
      · rw [haddr, byAddrGet_mapSet_self]
        have hfp := (insertAt_perm (l := s.all) (iAdd s a) a).filter
          (fun y => y.address == a.address)
        have hfc : (a :: s.all).filter (fun y => y.address == a.address) =
            a :: s.all.filter (fun y => y.address == a.address) :=
          List.filter_cons_of_pos (by simp)
        rw [hfc] at hfp
        refine ((List.perm_append_singleton a _).trans ?_).trans hfp.symm
        exact (hperm a.address).cons a
      · rw [byAddrGet_mapSet_ne _ _ haddr]
        have hfp := (insertAt_perm (l := s.all) (iAdd s a) a).filter
          (fun y => y.address == addr)
        have hfc : (a :: s.all).filter (fun y => y.address == addr) =
            s.all.filter (fun y => y.address == addr) :=
          List.filter_cons_of_neg (by
            simp only [beq_iff_eq]
            exact fun hh => haddr hh.symm)
        rw [hfc] at hfp
        exact (hperm addr).trans hfp.symm
    · intro e he
      rcases mem_mapSet e he with h1 | h1
      · rw [h1]
        simp
      · exact hne e h1

theorem AddrInv_del (s : CacheState) (path : String)
    (h : AddrInv s) : AddrInv (s.deleteByFile path) := by
  obtain ⟨hnd, hperm, hne⟩ := h
  by_cases hc : iDel s path < s.all.length ∧
      (s.all.getD (iDel s path) accountZero).url.path = (acctDel s path).url.path
  · rw [del_eq_remove hc]
    have hdec := take_getD_cons_drop accountZero (iDel s path) hc.1
    have hpermall : s.all.Perm
        (s.all.getD (iDel s path) accountZero ::
          (s.all.take (iDel s path) ++ s.all.drop (iDel s path + 1))) := by
      conv_lhs => rw [hdec]
      exact List.perm_middle
    have hremmem : s.all.getD (iDel s path) accountZero ∈ s.all :=
      getD_mem_of_lt accountZero hc.1
    have hfilterall : (s.all.filter
        (fun y => y.address == (s.all.getD (iDel s path) accountZero).address)).Perm
        ((s.all.getD (iDel s path) accountZero) ::
          ((s.all.take (iDel s path) ++ s.all.drop (iDel s path + 1)).filter
            (fun y => y.address == (s.all.getD (iDel s path) accountZero).address))) := by
      refine (hpermall.filter _).trans ?_
      rw [List.filter_cons_of_pos (by simp)]
    have hba : (removeAccount
        (byAddrGet s.byAddr (s.all.getD (iDel s path) accountZero).address)
        (s.all.getD (iDel s path) accountZero)).Perm
        ((s.all.take (iDel s path) ++ s.all.drop (iDel s path + 1)).filter
          (fun y => y.address == (s.all.getD (iDel s path) accountZero).address)) := by
      rw [removeAccount_eq_erase]
      refine ((hperm _).erase _).trans ?_
      refine (hfilterall.erase _).trans ?_
      rw [List.erase_cons_head]
    refine ⟨?_, ?_, ?_⟩
    · by_cases hlen : (removeAccount
          (byAddrGet s.byAddr (s.all.getD (iDel s path) accountZero).address)
          (s.all.getD (iDel s path) accountZero)).length = 0
      · rw [if_pos hlen]
        exact keysND_mapDel _ hnd
      · rw [if_neg hlen]
        exact keysND_mapSet _ _ hnd
    · intro addr
      by_cases haddr : addr = (s.all.getD (iDel s path) accountZero).address
      · rw [haddr]
        by_cases hlen : (removeAccount
            (byAddrGet s.byAddr (s.all.getD (iDel s path) accountZero).address)
            (s.all.getD (iDel s path) accountZero)).length = 0
        · rw [if_pos hlen, byAddrGet_mapDel_self _ _ hnd]
          have hbaeq := List.length_eq_zero.mp hlen
          rw [hbaeq] at hba
          exact hba
        · rw [if_neg hlen, byAddrGet_mapSet_self]
          exact hba
      · have hfeq : ((s.all.take (iDel s path) ++ s.all.drop (iDel s path + 1)).filter
            (fun y => y.address == addr)) = s.all.filter (fun y => y.address == addr) := by
          conv_rhs => rw [hdec]
          rw [List.filter_append, List.filter_append,
            List.filter_cons_of_neg (by
              simp only [beq_iff_eq]
              exact fun hh => haddr hh.symm)]
        by_cases hlen : (removeAccount
            (byAddrGet s.byAddr (s.all.getD (iDel s path) accountZero).address)
            (s.all.getD (iDel s path) accountZero)).length = 0
        · rw [if_pos hlen, byAddrGet_mapDel_ne _ haddr, hfeq]
          exact hperm addr
        · rw [if_neg hlen, byAddrGet_mapSet_ne _ _ haddr, hfeq]
          exact hperm addr
    · intro e he
      by_cases hlen : (removeAccount
          (byAddrGet s.byAddr (s.all.getD (iDel s path) accountZero).address)
          (s.all.getD (iDel s path) accountZero)).length = 0
      · rw [if_pos hlen] at he
        exact hne e (mem_mapDel e he)
      · rw [if_neg hlen] at he
        rcases mem_mapSet e he with h1 | h1
        · rw [h1]
          intro hcon
          exact hlen (List.length_eq_zero.mpr hcon)
        · exact hne e h1
  · rw [del_eq_self hc]
    exact ⟨hnd, hperm, hne⟩

theorem runOps_addrInv (ops : List CacheOp) :
    ∀ s : CacheState, AddrInv s → AddrInv (runOps s ops) := by
  induction ops with
  | nil => intro s hs; exact hs
  | cons op rest ih =>
    intro s hs
    rw [runOps_cons]
    cases op with
    | add a f => exact ih _ (AddrInv_add s a f hs)
    | del f => exact ih _ (AddrInv_del s f hs)

theorem addrInv_empty (keydir : String) : AddrInv (emptyCache keydir) := by
  refine ⟨by simp [keysND, emptyCache], ?_, by simp [emptyCache]⟩
  intro addr
  simp [emptyCache, byAddrGet, mapGet]

/-! ### Claim C2, part I3: path-order helpers and the delete search -/

theorem stringsCompare_le_lt_trans {a b c : String}
    (h1 : stringsCompare a b ≠ .gt) (h2 : stringsCompare b c = .lt) :
    stringsCompare a c = .lt := by
  cases hab : stringsCompare a b with
  | lt => exact stringsCompare_lt_trans hab h2
  | eq =>
    have := stringsCompare_eq_eq.mp hab
    rw [this]
    exact h2
  | gt => exact absurd hab h1

theorem path_le_of_urlLe {x y : Account} (h : x.url.le y.url)
    (hsch : x.url.scheme = y.url.scheme) :
    stringsCompare x.url.path y.url.path ≠ .gt := by
  unfold URL.le URL.cmp at h
  rwa [if_pos hsch] at h

theorem deleteSearchPred_iff {l : List Account} {acct : Account} {k : Nat} :
    deleteSearchPred l acct k = true ↔
      stringsCompare (l.getD k accountZero).url.path acct.url.path ≠ .lt := by
  unfold deleteSearchPred
  rw [decide_eq_true_iff]

theorem deleteSearchPred_mono {l : List Account} (hs : SortedByURL l)
    (hsch : ∀ x ∈ l, ∀ y ∈ l, x.url.scheme = y.url.scheme) (acct : Account) :
    MonoPred (deleteSearchPred l acct) l.length := by
  intro k hk hkt
  rw [deleteSearchPred_iff] at *
  have hadj : Account.urlLe (l.getD k accountZero) (l.getD (k + 1) accountZero) := by
    rw [List.getD_eq_getElem l accountZero (by omega),
      List.getD_eq_getElem l accountZero hk]
    exact List.pairwise_iff_get.mp hs ⟨k, by omega⟩ ⟨k + 1, hk⟩ (by simp)
  have hple : stringsCompare (l.getD k accountZero).url.path
      (l.getD (k + 1) accountZero).url.path ≠ .gt :=
    path_le_of_urlLe hadj
      (hsch _ (getD_mem_of_lt accountZero (by omega)) _ (getD_mem_of_lt accountZero hk))
  intro hcon
  exact hkt (stringsCompare_le_lt_trans hple hcon)

/-- When the looked-up account is cached, the path-based binary search
finds an index whose account has exactly that URL path. -/
theorem iDel_hits {s : CacheState} {acct : Account}
    (hs : SortedByURL s.all)
    (hsch : ∀ x ∈ s.all, ∀ y ∈ s.all, x.url.scheme = y.url.scheme)
    (hmem : acct ∈ s.all) (path : String)
    (hacct : acctDel s path = acct) :
    iDel s path < s.all.length ∧
    (s.all.getD (iDel s path) accountZero).url.path = acct.url.path := by
  have hmono := deleteSearchPred_mono hs hsch acct
  obtain ⟨hlow, hhigh⟩ := sortSearch_char hmono
  unfold iDel
  rw [hacct]
  obtain ⟨⟨k, hk⟩, hget⟩ := List.mem_iff_get.mp hmem
  have hgetD : s.all.getD k accountZero = acct := by
    rw [List.getD_eq_getElem s.all accountZero hk]
    simpa [List.get_eq_getElem] using hget
  have hpk : deleteSearchPred s.all acct k = true := by
    rw [deleteSearchPred_iff, hgetD, stringsCompare_self]
    intro hcon
    cases hcon
  have hknotlt : ¬ k < sortSearch s.all.length (deleteSearchPred s.all acct) := by
    intro hcon
    rw [hlow k hcon] at hpk
    cases hpk
  have hilt : sortSearch s.all.length (deleteSearchPred s.all acct) < s.all.length := by
    omega
  refine ⟨hilt, ?_⟩
  have h1 : stringsCompare
      (s.all.getD (sortSearch s.all.length (deleteSearchPred s.all acct)) accountZero).url.path
      acct.url.path ≠ .lt :=
    deleteSearchPred_iff.mp (hhigh _ (Nat.le_refl _) hilt)
  have h2 : stringsCompare
      (s.all.getD (sortSearch s.all.length (deleteSearchPred s.all acct)) accountZero).url.path
      acct.url.path ≠ .gt := by
    rcases Nat.eq_or_lt_of_le (Nat.le_of_not_lt hknotlt) with he | hlt
    · rw [he, hgetD, stringsCompare_self]
      intro hcon
      cases hcon
    · have hpw := List.pairwise_iff_get.mp hs ⟨_, hilt⟩ ⟨k, hk⟩ (by simpa using hlt)
      unfold Account.urlLe at hpw
      simp only [List.get_eq_getElem] at hpw
      rw [← List.getD_eq_getElem s.all accountZero hilt,
        ← List.getD_eq_getElem s.all accountZero hk] at hpw
      have := path_le_of_urlLe hpw
        (hsch _ (getD_mem_of_lt accountZero hilt) _ (getD_mem_of_lt accountZero hk))
      rw [hgetD] at this
      exact this
  rcases hcase : stringsCompare
      (s.all.getD (sortSearch s.all.length (deleteSearchPred s.all acct)) accountZero).url.path
      acct.url.path with _ | _ | _
  · exact absurd hcase h1
  · exact stringsCompare_eq_eq.mp hcase
  · exact absurd hcase h2

/-- Well-formed add sets: every added account has a non-empty URL path,
all added accounts share one URL scheme, distinct accounts have distinct
URL paths, and accounts and file paths pair up bijectively. -/
def WellFormedAdds (A : List (Account × String)) : Prop :=
  (∀ p ∈ A, p.1.url.path ≠ "") ∧
  (∀ p ∈ A, ∀ q ∈ A, p.1.url.scheme = q.1.url.scheme) ∧
  (∀ p ∈ A, ∀ q ∈ A, p.1.url.path = q.1.url.path → p.1 = q.1) ∧
  (∀ p ∈ A, ∀ q ∈ A, (p.1 = q.1 ↔ p.2 = q.2))

instance (A : List (Account × String)) : Decidable (WellFormedAdds A) :=
  inferInstanceAs (Decidable (_ ∧ _ ∧ _ ∧ _))

/-- The carried invariant for I3: `all` sorted and duplicate-free,
`byFile` keys distinct, every `byFile` entry an added pair whose account
is live in `all`, every cached account reachable from some `byFile`
entry, the `byFile` domain exactly the live path set `L`, and `L`
duplicate-free. -/
def FileInv (A : List (Account × String)) (s : CacheState) (L : List String) : Prop :=
  SortedByURL s.all ∧ s.all.Nodup ∧ keysND s.byFile ∧
  (∀ e ∈ s.byFile, (e.2, e.1) ∈ A ∧ e.2 ∈ s.all) ∧
  (∀ x ∈ s.all, ∃ g, (g, x) ∈ s.byFile) ∧
  (∀ g, (mapGet s.byFile g).isSome ↔ g ∈ L) ∧
  L.Nodup

theorem FileInv_add (A : List (Account × String)) (hwf : WellFormedAdds A)
    (s : CacheState) (L : List String) (a : Account) (f : String)
    (haf : (a, f) ∈ A) (h : FileInv A s L) :
    FileInv A (s.Add a f) (liveStep L (.add a f)) := by
  obtain ⟨hsort, hnd, hknd, hK4, hK5, hK6, hLnd⟩ := h
  obtain ⟨hw1, hw2, hw3, hw4⟩ := hwf
  have hinj : ∀ y ∈ s.all, y.url = a.url → y = a := by
    intro y hy hurl
    obtain ⟨g, hg⟩ := hK5 y hy
    exact hw3 (y, g) (hK4 _ hg).1 (a, f) haf (by rw [hurl])
  show FileInv A (s.Add a f) (if f ∈ L then L else L ++ [f])
  by_cases hc : iAdd s a < s.all.length ∧ s.all.getD (iAdd s a) accountZero = a
  · have hmem : a ∈ s.all := hc.2 ▸ getD_mem_of_lt accountZero hc.1
    obtain ⟨g, hg⟩ := hK5 a hmem
    have hgf : g = f := (hw4 (a, g) (hK4 _ hg).1 (a, f) haf).mp rfl
    have hfL : f ∈ L :=
      (hK6 f).mp (by rw [mapGet_of_mem hknd (hgf ▸ hg)]; rfl)
    rw [Add_eq_self f hc, if_pos hfL]
    exact ⟨hsort, hnd, hknd, hK4, hK5, hK6, hLnd⟩
  · have hnotmem : a ∉ s.all := fun hmem => hc (iAdd_found_of_mem hsort hmem hinj)
    have hfnotL : f ∉ L := by
      intro hfL
      have hsome := (hK6 f).mpr hfL
      rcases hx : mapGet s.byFile f with _ | x
      · rw [hx] at hsome
        cases hsome
      · have hxmem := mem_of_mapGet hx
        have hxa : x = a := (hw4 (x, f) (hK4 _ hxmem).1 (a, f) haf).mpr rfl
        exact hnotmem (hxa ▸ (hK4 _ hxmem).2)
    rw [if_neg hfnotL]
    have hperm := insertAt_perm (l := s.all) (iAdd s a) a
    obtain ⟨hle, hlow, hhigh⟩ := iAdd_spec hsort a
    rw [Add_eq_insert f hc]
    refine ⟨?_, ?_, ?_, ?_, ?_, ?_, ?_⟩
    · exact insertAt_sorted hsort hle hlow hhigh
    · exact hperm.nodup_iff.mpr (List.nodup_cons.mpr ⟨hnotmem, hnd⟩)
    · exact keysND_mapSet _ _ hknd
    · intro e he
      rcases mem_mapSet e he with h1 | h1
      · rw [h1]
        exact ⟨haf, hperm.mem_iff.mpr (List.mem_cons_self _ _)⟩
      · exact ⟨(hK4 _ h1).1,
          hperm.mem_iff.mpr (List.mem_cons_of_mem _ (hK4 _ h1).2)⟩
    · intro x hx
      rcases List.mem_cons.mp (hperm.mem_iff.mp hx) with h1 | h1
      · exact ⟨f, h1 ▸ mem_mapSet_self _ _ _⟩
      · obtain ⟨g, hg⟩ := hK5 x h1
        have hgf : g ≠ f := by
          intro hgf
          subst hgf
          have hsome : (mapGet s.byFile g).isSome := by
            rw [mapGet_of_mem hknd hg]
            rfl
          exact hfnotL ((hK6 g).mp hsome)
        exact ⟨g, mem_mapSet_of_ne hg f a hgf⟩
    · intro g
      by_cases hgf : g = f
      · subst hgf
        rw [mapGet_mapSet_self]
        simp
      · rw [mapGet_mapSet_ne _ a hgf]
        rw [hK6 g]
        simp [List.mem_append, hgf]
    · simp [List.nodup_append, hLnd, hfnotL]

theorem FileInv_del (A : List (Account × String)) (hwf : WellFormedAdds A)
    (s : CacheState) (L : List String) (f : String) (h : FileInv A s L) :
    FileInv A (s.deleteByFile f) (liveStep L (.del f)) := by
  obtain ⟨hsort, hnd, hknd, hK4, hK5, hK6, hLnd⟩ := h
  obtain ⟨hw1, hw2, hw3, hw4⟩ := hwf
  show FileInv A (s.deleteByFile f) (L.erase f)
  rcases hget : mapGet s.byFile f with _ | acct
  · have hpaths : ∀ x ∈ s.all, x.url.path ≠ "" := by
      intro x hx
      obtain ⟨g, hg⟩ := hK5 x hx
      exact hw1 (x, g) (hK4 _ hg).1
    rw [delete_unknown_noop_aux s f hget hpaths]
    have hfL : f ∉ L := by
      intro hfL
      have hsome := (hK6 f).mpr hfL
      rw [hget] at hsome
      cases hsome
    rw [List.erase_of_not_mem hfL]
    exact ⟨hsort, hnd, hknd, hK4, hK5, hK6, hLnd⟩
  · have hfmem : (f, acct) ∈ s.byFile := mem_of_mapGet hget
    have hacctA := (hK4 _ hfmem).1
    have hacctmem := (hK4 _ hfmem).2
    have hsch : ∀ x ∈ s.all, ∀ y ∈ s.all, x.url.scheme = y.url.scheme := by
      intro x hx y hy
      obtain ⟨gx, hgx⟩ := hK5 x hx
      obtain ⟨gy, hgy⟩ := hK5 y hy
      exact hw2 (x, gx) (hK4 _ hgx).1 (y, gy) (hK4 _ hgy).1
    have hacctDel : acctDel s f = acct := by
      unfold acctDel
      rw [hget]
      rfl
    obtain ⟨hilt, hpath⟩ := iDel_hits hsort hsch hacctmem f hacctDel
    have hcond : iDel s f < s.all.length ∧
        (s.all.getD (iDel s f) accountZero).url.path = (acctDel s f).url.path := by
      rw [hacctDel]
      exact ⟨hilt, hpath⟩
    have hremeq : s.all.getD (iDel s f) accountZero = acct := by
      obtain ⟨gr, hgr⟩ := hK5 _ (getD_mem_of_lt accountZero hilt)
      exact hw3 (s.all.getD (iDel s f) accountZero, gr) (hK4 _ hgr).1 (acct, f) hacctA hpath
    rw [del_eq_remove hcond]
    have hdec := take_getD_cons_drop accountZero (iDel s f) hilt
    have hpermall : s.all.Perm
        (acct :: (s.all.take (iDel s f) ++ s.all.drop (iDel s f + 1))) := by
      conv_lhs => rw [hdec]
      rw [hremeq]
      exact List.perm_middle
    have hsub : (s.all.take (iDel s f) ++ s.all.drop (iDel s f + 1)).Sublist s.all := by
      conv_rhs => rw [hdec]
      exact List.Sublist.append_left (List.sublist_cons_self _ _) _
    have hacctnot : acct ∉ s.all.take (iDel s f) ++ s.all.drop (iDel s f + 1) :=
      (List.nodup_cons.mp (hpermall.nodup_iff.mp hnd)).1
    refine ⟨?_, ?_, ?_, ?_, ?_, ?_, ?_⟩
    · exact List.Pairwise.sublist hsub hsort
    · exact List.Nodup.sublist hsub hnd
    · exact keysND_mapDel _ hknd
    · intro e he
      have hein := mem_mapDel e he
      have henek := mem_mapDel_ne_key hknd e he
      refine ⟨(hK4 _ hein).1, ?_⟩
      have hexne : e.2 ≠ acct := by
        intro hcon
        have heA := (hK4 _ hein).1
        rw [hcon] at heA
        exact henek ((hw4 (acct, e.1) heA (acct, f) hacctA).mp rfl)
      rcases List.mem_cons.mp (hpermall.mem_iff.mp (hK4 _ hein).2) with h1 | h1
      · exact absurd h1 hexne
      · exact h1
    · intro x hx
      obtain ⟨g, hg⟩ := hK5 x (hsub.mem hx)
      have hgf : g ≠ f := by
        intro hgf
        subst hgf
        have h1 := mapGet_of_mem hknd hg
        rw [hget] at h1
        injection h1 with h2
        exact hacctnot (h2 ▸ hx)
      exact ⟨g, mem_mapDel_of_ne hg hgf⟩
    · intro g
      by_cases hgf : g = f
      · subst hgf
        rw [mapGet_mapDel_self _ _ hknd]
        simp [List.Nodup.not_mem_erase hLnd]
      · rw [mapGet_mapDel_ne _ hgf, hK6 g]
        exact (List.mem_erase_of_ne hgf).symm
    · exact hLnd.erase f

theorem runOps_fileInv (A : List (Account × String)) (hwf : WellFormedAdds A) :
    ∀ (ops : List CacheOp) (s : CacheState) (L : List String),
      (∀ p ∈ addsOf ops, p ∈ A) → FileInv A s L →
      FileInv A (runOps s ops) (ops.foldl liveStep L) := by
  intro ops
  induction ops with
  | nil => intro s L _ h; exact h
  | cons op rest ih =>
    intro s L hsub h
    rw [runOps_cons, List.foldl_cons]
    cases op with
    | add a f =>
      refine ih _ _ (fun p hp => hsub p ?_)
        (FileInv_add A hwf s L a f (hsub (a, f) ?_) h)
      · rw [addsOf_cons_add]
        exact List.mem_cons_of_mem _ hp
      · rw [addsOf_cons_add]
        exact List.mem_cons_self _ _
    | del f =>
      exact ih _ _ (fun p hp => hsub p (by rwa [addsOf_cons_del]))
        (FileInv_del A hwf s L f h)

/-! ### Claim C2 -/

/-- C2 (counterexample): the claim as stated is false.  After adding an
account with an empty URL path under `f1` and removing the unknown path
`f2`, `byFile` still maps `f1` to the account although the account is no
longer in `all` — a dangling entry (the missing early return in
`deleteByFile` removes the account via the zero-value account's empty
path but deletes only the queried path's map entry). -/
theorem c2_counterexample :
    mapGet (runOps (emptyCache "kd")
      [.add ⟨1, ⟨"hashicfg", ""⟩⟩ "f1", CacheOp.del "f2"]).byFile "f1" =
      some ⟨1, ⟨"hashicfg", ""⟩⟩ ∧
    ⟨1, ⟨"hashicfg", ""⟩⟩ ∉ (runOps (emptyCache "kd")
      [.add ⟨1, ⟨"hashicfg", ""⟩⟩ "f1", CacheOp.del "f2"]).all := by
  decide

/-- C2 (amended): after every sequence of `Add`/`deleteByFile` operations
from the empty cache, I2 holds unconditionally: `byAddr` maps each
address to exactly (a permutation of) the accounts in `all` with that
address and never maps a key to an empty list.  I3 holds provided the
added pairs are well formed (non-empty URL paths, one URL scheme,
distinct accounts have distinct paths, accounts and file paths pair up
bijectively): `byFile` then has exactly the added-and-not-removed paths
as its domain, and no entry dangles — every stored account is in
`all`. -/
theorem c2_index_consistency (keydir : String) (ops : List CacheOp) :
    ((∀ addr, (byAddrGet (runOps (emptyCache keydir) ops).byAddr addr).Perm
        ((runOps (emptyCache keydir) ops).all.filter (fun y => y.address == addr))) ∧
      (∀ e ∈ (runOps (emptyCache keydir) ops).byAddr, e.2 ≠ [])) ∧
    (WellFormedAdds (addsOf ops) →
      (∀ f, f ∈ liveFiles ops ↔
        (mapGet (runOps (emptyCache keydir) ops).byFile f).isSome) ∧
      (∀ f a, mapGet (runOps (emptyCache keydir) ops).byFile f = some a →
        a ∈ (runOps (emptyCache keydir) ops).all)) := by
  constructor
  · have h := runOps_addrInv ops (emptyCache keydir) (addrInv_empty keydir)
    exact ⟨h.2.1, h.2.2⟩
  · intro hwf
    have hbase : FileInv (addsOf ops) (emptyCache keydir) [] := by
      refine ⟨List.Pairwise.nil, List.nodup_nil, by simp [keysND, emptyCache],
        ?_, ?_, ?_, List.nodup_nil⟩
      · intro e he
        simp [emptyCache] at he
      · intro x hx
        simp [emptyCache] at hx
      · intro g
        simp [emptyCache, mapGet]
    have h := runOps_fileInv (addsOf ops) hwf ops (emptyCache keydir) []
      (fun p hp => hp) hbase
    obtain ⟨_, _, hknd, hK4, _, hK6, _⟩ := h
    constructor
    · intro f
      rw [show liveFiles ops = ops.foldl liveStep [] from rfl]
      exact (hK6 f).symm
    · intro f a hfa
      exact (hK4 _ (mem_of_mapGet hfa)).2

/-- C2 (witness): the amended theorem applied to a well-formed concrete
sequence (two accounts, one later removed). -/
theorem c2_index_consistency_witness :
    WellFormedAdds (addsOf
      [.add ⟨1, ⟨"s", "a"⟩⟩ "f1", .add ⟨2, ⟨"s", "b"⟩⟩ "f2", CacheOp.del "f1"]) ∧
    ((∀ f, f ∈ liveFiles
        [.add ⟨1, ⟨"s", "a"⟩⟩ "f1", .add ⟨2, ⟨"s", "b"⟩⟩ "f2", CacheOp.del "f1"] ↔
      (mapGet (runOps (emptyCache "kd")
        [.add ⟨1, ⟨"s", "a"⟩⟩ "f1", .add ⟨2, ⟨"s", "b"⟩⟩ "f2",
         CacheOp.del "f1"]).byFile f).isSome) ∧
     (∀ f a, mapGet (runOps (emptyCache "kd")
        [.add ⟨1, ⟨"s", "a"⟩⟩ "f1", .add ⟨2, ⟨"s", "b"⟩⟩ "f2",
         CacheOp.del "f1"]).byFile f = some a →
      a ∈ (runOps (emptyCache "kd")
        [.add ⟨1, ⟨"s", "a"⟩⟩ "f1", .add ⟨2, ⟨"s", "b"⟩⟩ "f2",
         CacheOp.del "f1"]).all)) :=
  ⟨by decide, (c2_index_consistency "kd"
    [.add ⟨1, ⟨"s", "a"⟩⟩ "f1", .add ⟨2, ⟨"s", "b"⟩⟩ "f2", CacheOp.del "f1"]).2
    (by decide)⟩
